import Mathlib

/-!
# Formal model of the `scrape_web_page` crawler

This file is a shallow embedding of `src/scrape_web_page/main.py`
(class `WebCrawlerScraper`) together with proofs about the claims of its
specification.

Python strings are modelled as lists of characters (`Str`).  The URL
machinery used by `WebCrawlerScraper.normalize_url` is
`urllib.parse.urlparse` / `urlunparse`; it is modelled after CPython 3.11
`urllib/parse.py` (`urlsplit`, `urlunsplit`, `_splitnetloc`,
`scheme_chars`, `uses_netloc`, `_UNSAFE_URL_BYTES_TO_REMOVE`).  Since
`normalize_url` clears `query` and `fragment`, and the `params` component
split off by `urlparse._splitparams` is re-joined verbatim by
`urlunparse` (`url[:i] + ';' + url[i+1:] == url`), composing
`urlsplit`/`urlunsplit` with `params` kept inside the path component is
extensionally identical to the code's `urlunparse(urlparse(u)._replace(query="", fragment=""))`.
The `ValueError` paths of `urlsplit` (mismatched IPv6 brackets,
`_checknetloc`) abort the Python program rather than produce a URL; they
are not modelled.

The HTTP transport, the HTML parser and `urljoin` are external
collaborators for the crawler; they enter the model as an oracle
(`Web`): `fetch` maps a URL to its outcome (extracted page text and the
`href` attributes of its anchors, or an error), `join` models
`urllib.parse.urljoin`.
-/

namespace ScrapeWebPage

/-- A Python string, as a list of characters. -/
abbrev Str := List Char

/-! ## The `urllib.parse` model -/

/-- Characters removed from every URL before splitting
(`_UNSAFE_URL_BYTES_TO_REMOVE` in `urllib.parse`). -/
def removedChar (c : Char) : Bool := c = '\t' || c = '\r' || c = '\n'

/-- `_WHATWG_C0_CONTROL_OR_SPACE`: C0 control characters and the space. -/
def c0OrSpace (c : Char) : Bool := c.toNat ≤ 32

/-- The sanitizing pass at the top of `urlsplit`:
`url.lstrip(_WHATWG_C0_CONTROL_OR_SPACE)` followed by removal of every
tab, carriage return and newline. -/
def sanitize (u : Str) : Str := (u.dropWhile c0OrSpace).filter (fun c => !removedChar c)

/-- ASCII uppercase letter. -/
def isAsciiUpper (c : Char) : Bool := 65 ≤ c.toNat && c.toNat ≤ 90

/-- ASCII lowercase letter. -/
def isAsciiLower (c : Char) : Bool := 97 ≤ c.toNat && c.toNat ≤ 122

/-- `c.isascii() and c.isalpha()` in Python: an ASCII letter. -/
def isAsciiAlpha (c : Char) : Bool := isAsciiUpper c || isAsciiLower c

/-- ASCII digit. -/
def isAsciiDigit (c : Char) : Bool := 48 ≤ c.toNat && c.toNat ≤ 57

/-- `scheme_chars` of `urllib.parse`: ASCII letters, digits, `+`, `-`, `.`. -/
def schemeChar (c : Char) : Bool := isAsciiAlpha c || isAsciiDigit c || c = '+' || c = '-' || c = '.'

/-- Python `str.lower()` on one character, restricted to its ASCII effect
(schemes recognised by `urlsplit` consist of `scheme_chars` only, all
ASCII). -/
def pyLower (c : Char) : Char :=
  if 65 ≤ c.toNat ∧ c.toNat ≤ 90 then Char.ofNat (c.toNat + 32) else c

/-- Python `str.lower()` on a scheme string. -/
def lowerStr (s : Str) : Str := s.map pyLower

/-- Split at the first `':'`: `some (before, after)` when a colon is present
(models `url.find(':')` plus the slicing `url[:i]`, `url[i+1:]`). -/
def breakColon : Str → Option (Str × Str)
  | [] => none
  | c :: cs =>
    if c = ':' then some ([], cs)
    else (breakColon cs).map fun p => (c :: p.1, p.2)

/-- `url[0].isascii() and url[0].isalpha()`. -/
def headIsAlpha (u : Str) : Bool :=
  match u with
  | [] => false
  | c :: _ => isAsciiAlpha c

/-- Scheme recognition of `urlsplit`: the text before the first `':'` is a
scheme when it is nonempty, starts with an ASCII letter and consists of
`scheme_chars`; the scheme is lowercased. -/
def splitScheme (u : Str) : Str × Str :=
  match breakColon u with
  | some (pre, rest) =>
    if pre ≠ [] ∧ headIsAlpha u ∧ pre.all schemeChar then (lowerStr pre, rest)
    else ([], u)
  | none => ([], u)

/-- Delimiters ending the network-location component (`_splitnetloc`). -/
def netlocDelim (c : Char) : Bool := c = '/' || c = '?' || c = '#'

/-- `_splitnetloc(url, 2)` applied to `url[2:]`: the netloc is everything up
to the first `/`, `?` or `#`. -/
def splitNetloc (u : Str) : Str × Str :=
  (u.takeWhile (fun c => !netlocDelim c), u.dropWhile (fun c => !netlocDelim c))

/-- `uses_netloc` of `urllib.parse` (schemes serialized with `//`). -/
def usesNetloc : List Str :=
  [[], "ftp".toList, "http".toList, "gopher".toList, "nntp".toList, "telnet".toList,
   "imap".toList, "wais".toList, "file".toList, "mms".toList, "https".toList,
   "shttp".toList, "snews".toList, "prospero".toList, "rtsp".toList, "rtspu".toList,
   "rsync".toList, "svn".toList, "svn+ssh".toList, "sftp".toList, "nfs".toList,
   "git".toList, "git+ssh".toList, "ws".toList, "wss".toList]

/-- The three components of an `urlsplit` result surviving
`normalize_url` (query and fragment are cleared by it; the params
component is split off the path by `urlparseQF` below). -/
structure SplitUrl where
  scheme : Str
  netloc : Str
  path : Str
deriving DecidableEq, Repr

/-- `urlsplit`, keeping the components that survive `normalize_url`:
sanitize, recognise the scheme, split the netloc after `//`, then cut the
fragment (first `#`) and the query (first `?`) off the remainder. -/
def urlsplitQF (u0 : Str) : SplitUrl :=
  let u1 := sanitize u0
  let sr := splitScheme u1
  let rest := sr.2
  if rest.take 2 = ['/', '/'] then
    let nl := splitNetloc (rest.drop 2)
    { scheme := sr.1, netloc := nl.1,
      path := (nl.2.takeWhile (fun c => c != '#')).takeWhile (fun c => c != '?') }
  else
    { scheme := sr.1, netloc := [],
      path := (rest.takeWhile (fun c => c != '#')).takeWhile (fun c => c != '?') }

/-- The `url` local of `urlunsplit` (CPython 3.11) just before the scheme
is prepended, with query and fragment empty: `//` is emitted when a
netloc is present, or when the scheme is in `uses_netloc` and the path
does not already start with `//`. -/
def unsplitBody (v : SplitUrl) : Str :=
  if v.netloc ≠ [] ∨ (v.scheme ≠ [] ∧ v.scheme ∈ usesNetloc ∧ v.path.take 2 ≠ ['/', '/']) then
    let p := if v.path ≠ [] ∧ v.path.take 1 ≠ ['/'] then '/' :: v.path else v.path
    '/' :: '/' :: (v.netloc ++ p)
  else v.path

/-- `urlunsplit` (CPython 3.11) with query and fragment empty. -/
def urlunsplitQF (v : SplitUrl) : Str :=
  if v.scheme ≠ [] then v.scheme ++ ':' :: unsplitBody v else unsplitBody v

/-- `uses_params` of `urllib.parse` (schemes accepting a params
component on the last path segment). -/
def usesParams : List Str :=
  [[], "ftp".toList, "hdl".toList, "prospero".toList, "http".toList, "imap".toList,
   "https".toList, "shttp".toList, "rtsp".toList, "rtsps".toList, "rtspu".toList,
   "sip".toList, "sips".toList, "mms".toList, "sftp".toList, "tel".toList]

/-- Split at the first `;`: `some (before, after)` when a semicolon is
present (models `url.find(';')` plus the slicing `url[:i]`, `url[i+1:]`). -/
def breakSemi : Str → Option (Str × Str)
  | [] => none
  | c :: cs =>
    if c = ';' then some ([], cs)
    else (breakSemi cs).map fun p => (c :: p.1, p.2)

/-- The segment after the last `/` (the whole string when there is no
`/`): the range searched by `url.find(';', url.rfind('/'))`. -/
def lastSeg (p : Str) : Str := (p.reverse.takeWhile (fun c => c ≠ '/')).reverse

/-- Everything up to and including the last `/` (empty when there is no
`/`). -/
def lastSegPre (p : Str) : Str := (p.reverse.dropWhile (fun c => c ≠ '/')).reverse

/-- `_splitparams(url)`: when the path contains a `/`, split at the first
`;` at or after the last `/` (no split when there is none); otherwise
split at the first `;`.  The last branch mirrors the unguarded
`url[:i], url[i+1:]` slicing of the source, which with `i = -1` (possible
only when the caller's `';' in url` test failed) yields `url[:-1]` and
`url[0:]`. -/
def splitParams (p : Str) : Str × Str :=
  if '/' ∈ p then
    match breakSemi (lastSeg p) with
    | some pr => (lastSegPre p ++ pr.1, pr.2)
    | none => (p, [])
  else
    match breakSemi p with
    | some pr => (pr.1, pr.2)
    | none => (p.dropLast, p)

/-- `urlparse`, keeping the components that survive `normalize_url`:
`urlsplit`, then `_splitparams` on the path when the scheme uses params
and the path contains a `;`; the second component is `params`. -/
def urlparseQF (u : Str) : SplitUrl × Str :=
  let v := urlsplitQF u
  if v.scheme ∈ usesParams ∧ ';' ∈ v.path then
    (⟨v.scheme, v.netloc, (splitParams v.path).1⟩, (splitParams v.path).2)
  else (v, [])

/-- `urlunparse` with query and fragment empty: a nonempty params
component is re-attached to the path with `;`, then `urlunsplit`. -/
def urlunparseQF (v : SplitUrl) (params : Str) : Str :=
  if params ≠ [] then urlunsplitQF ⟨v.scheme, v.netloc, v.path ++ ';' :: params⟩
  else urlunsplitQF v

/-- `WebCrawlerScraper.normalize_url`:
`urlunparse(urlparse(url)._replace(query="", fragment=""))`. -/
def normalize_url (u : Str) : Str :=
  urlunparseQF (urlparseQF u).1 (urlparseQF u).2

example : normalize_url "http://example.com/docs?q=1#top".toList
    = "http://example.com/docs".toList := by decide

example : normalize_url "HTTP://example.com/a#b".toList
    = "http://example.com/a".toList := by decide

example : normalize_url "/rel/path".toList = "/rel/path".toList := by decide

/-! ## Python string predicates used by the crawler -/

/-- Python `u.startswith(pat)`. -/
def startsWith : Str → Str → Bool
  | _, [] => true
  | [], _ :: _ => false
  | c :: cs, d :: ds => c = d && startsWith cs ds

/-- Python `u.endswith(pat)`. -/
def endsWith (u pat : Str) : Bool := startsWith u.reverse pat.reverse

/-- Python substring containment `pat in u`. -/
def hasSubstr (u pat : Str) : Bool :=
  startsWith u pat ||
    match u with
    | [] => false
    | _ :: t => hasSubstr t pat

/-- Python string comparison `<`: lexicographic by code point. -/
def strLt : Str → Str → Bool
  | [], [] => false
  | [], _ :: _ => true
  | _ :: _, [] => false
  | a :: xs, b :: ys => if a < b then true else if a = b then strLt xs ys else false

/-! ## Crawler state and external collaborators -/

/-- Abstract model of a parsed page (the `BeautifulSoup` document built on
line 69): `text` is what `scrape_content` extracts from it after removing
the boilerplate elements, `hrefs` are the `href` attributes of its
`<a href=...>` anchors in document order (line 79). -/
structure Soup where
  text : Str
  hrefs : List Str
deriving DecidableEq, Repr

/-- `requests.get(url)`: either a transport-level exception
(`requests.exceptions.RequestException`, line 74) or a response carrying a
status code and a body, the body abstracted by its parse result. -/
inductive FetchResult where
  | response (status : Nat) (soup : Soup)
  | exn
deriving DecidableEq, Repr

/-- The fixed external world of one crawl: a deterministic page graph
(`fetch`) and `urllib.parse.urljoin` (`join`), both black-box
collaborators of the crawler. -/
structure Web where
  fetch : Str → FetchResult
  join : Str → Str → Str

/-- The mutable session state owned by a `WebCrawlerScraper` instance.
`found_urls` and `visited_urls` are Python `set`s, `scraped_data` a
Python `dict` in insertion order. -/
structure CrawlerState where
  root_urls : List Str
  ignore_urls : List Str
  found_urls : Finset Str
  visited_urls : Finset Str
  scraped_data : List (Str × Str)
deriving DecidableEq

/-- `WebCrawlerScraper.__init__` (the `ignore_urls` set is only ever used
through existential membership tests, so a list models it faithfully). -/
def initState (root_urls ignore_urls : List Str) : CrawlerState :=
  { root_urls := root_urls.map normalize_url
    ignore_urls := ignore_urls
    found_urls := ∅
    visited_urls := ∅
    scraped_data := [] }

/-- `WebCrawlerScraper.is_subpath`:
`any(url.startswith(root_url) for root_url in self.root_urls)`. -/
def is_subpath (st : CrawlerState) (url : Str) : Bool :=
  st.root_urls.any (fun root_url => startsWith url root_url)

/-- `WebCrawlerScraper.should_ignore`:
`any(ignore_url in url for ignore_url in self.ignore_urls)`. -/
def should_ignore (st : CrawlerState) (url : Str) : Bool :=
  st.ignore_urls.any (fun ignore_url => hasSubstr url ignore_url)

/-- The skipped-extension test of lines 62 and 82:
`url.endswith('.pdf') or url.endswith('.jpg') or url.endswith('.jpeg')`. -/
def skipExt (url : Str) : Bool :=
  endsWith url ".pdf".toList || endsWith url ".jpg".toList || endsWith url ".jpeg".toList

/-- Python `dict` assignment `d[k] = v`: overwrite in place when the key
is present, otherwise append. -/
def dictInsert (m : List (Str × Str)) (k v : Str) : List (Str × Str) :=
  if k ∈ m.map Prod.fst then m.map (fun p => if p.1 = k then (k, v) else p)
  else m ++ [(k, v)]

/-- `WebCrawlerScraper.scrape_content`: decompose the boilerplate
selectors, extract the page text (abstracted as `soup.text`) and store it
under `url`. -/
def scrape_content (st : CrawlerState) (soup : Soup) (url : Str) : CrawlerState :=
  { st with scraped_data := dictInsert st.scraped_data url soup.text }

/-- The link-discovery loop of `explore_and_scrape` (lines 79-84): resolve
each `href` against the page URL, normalize it, and add it to
`found_urls` unless it ends in a skipped extension, is already in
`found_urls`, is out of scope, or matches an ignore pattern. -/
def discoverLinks (w : Web) (base : Str) (st : CrawlerState) (hrefs : List Str) : CrawlerState :=
  hrefs.foldl (fun s href =>
    let full_url := normalize_url (w.join base href)
    if ¬ skipExt full_url ∧
        full_url ∉ s.found_urls ∧ is_subpath s full_url ∧ ¬ should_ignore s full_url then
      { s with found_urls := insert full_url s.found_urls }
    else s) st

/-- `WebCrawlerScraper.explore_and_scrape` (its `root_url` parameter is
never read by the body, exactly as in the source). -/
def explore_and_scrape (w : Web) (st : CrawlerState) (url root_url : Str) : CrawlerState :=
  let normalized_url := normalize_url url
  if normalized_url ∈ st.visited_urls ∨ ¬ is_subpath st normalized_url ∨
      should_ignore st normalized_url then st
  else
    let st1 := { st with visited_urls := insert normalized_url st.visited_urls }
    if skipExt normalized_url then st1
    else
      match w.fetch normalized_url with
      | .response status soup =>
        if status = 200 then
          discoverLinks w normalized_url (scrape_content st1 soup normalized_url) soup.hrefs
        else st1
      | .exn => st1

/-- The URLs on which one `explore_and_scrape` call performs
`requests.get` (line 67): empty when the call drops the URL at the guard
or at the extension check, otherwise exactly the normalized URL. -/
def exploreFetchLog (st : CrawlerState) (url : Str) : List Str :=
  let normalized_url := normalize_url url
  if normalized_url ∈ st.visited_urls ∨ ¬ is_subpath st normalized_url ∨
      should_ignore st normalized_url then []
  else if skipExt normalized_url then []
  else [normalized_url]

/-- One complete run of the `while self.found_urls - self.visited_urls:`
loop of `crawl_and_scrape` for the root `root_url`: each iteration pops
an arbitrary member of the set difference (`set.pop` is unspecified) and
explores it; the loop ends exactly when the difference is empty.  The
third component collects the fetched URLs in order. -/
inductive LoopRun (w : Web) (root_url : Str) : CrawlerState → CrawlerState → List Str → Prop where
  | done (st : CrawlerState) (h : ∀ u ∈ st.found_urls, u ∈ st.visited_urls) :
      LoopRun w root_url st st []
  | step (st : CrawlerState) (u : Str) (hu : u ∈ st.found_urls) (hv : u ∉ st.visited_urls)
      {t : CrawlerState} {L : List Str}
      (hrest : LoopRun w root_url (explore_and_scrape w st u root_url) t L) :
      LoopRun w root_url st t (exploreFetchLog st u ++ L)

/-- `WebCrawlerScraper.crawl_and_scrape`: for each root URL in order,
explore the root itself and then run the frontier loop to exhaustion. -/
inductive CrawlRun (w : Web) : CrawlerState → List Str → CrawlerState → List Str → Prop where
  | nil (st : CrawlerState) : CrawlRun w st [] st []
  | cons (st : CrawlerState) (root_url : Str) (roots : List Str)
      {st1 : CrawlerState} {L1 : List Str} {t : CrawlerState} {L2 : List Str}
      (hloop : LoopRun w root_url (explore_and_scrape w st root_url root_url) st1 L1)
      (hrest : CrawlRun w st1 roots t L2) :
      CrawlRun w st (root_url :: roots) t (exploreFetchLog st root_url ++ L1 ++ L2)

/-- A completed `crawl_and_scrape()` execution on the session created by
`__init__(root_urls, ignore_urls)`, final state `t`, fetch log `L`. -/
def CrawlExec (w : Web) (root_urls ignore_urls : List Str) (t : CrawlerState)
    (L : List Str) : Prop :=
  CrawlRun w (initState root_urls ignore_urls) (initState root_urls ignore_urls).root_urls t L

/-! ## Aggregation and serialization -/

/-- Python tuple comparison on the `(url, content)` items of the document
store: lexicographic, first component first. -/
def pairLt (p q : Str × Str) : Bool := strLt p.1 q.1 || (p.1 = q.1 && strLt p.2 q.2)

/-- Python `sorted` orders by `<`; an element goes before another exactly
when the latter is not smaller (stable merge sort). -/
def pairLe (p q : Str × Str) : Bool := !pairLt q p

/-- `WebCrawlerScraper.sort_scraped_data`:
`dict(sorted(self.scraped_data.items()))`. -/
def sort_scraped_data (m : List (Str × Str)) : List (Str × Str) :=
  m.mergeSort pairLe

/-- The block `f"{url}\n\"\"\"\n{content}\n\"\"\"\n\n"` serialized for one
entry of the sorted document store. -/
def entryBlock (p : Str × Str) : Str :=
  p.1 ++ "\n\"\"\"\n".toList ++ p.2 ++ "\n\"\"\"\n\n".toList

/-- `WebCrawlerScraper.convert_to_text`: concatenate the blocks of the
sorted entries in order (the console statistics do not affect the
returned text). -/
def convert_to_text (m : List (Str × Str)) : Str :=
  (sort_scraped_data m).foldl (fun acc p => acc ++ entryBlock p) []

/-! ## Basic lemmas about the string primitives -/

theorem startsWith_iff (u pat : Str) : startsWith u pat = true ↔ pat <+: u := by
  induction pat generalizing u with
  | nil => simp [startsWith]
  | cons d ds ih =>
    cases u with
    | nil => simp [startsWith]
    | cons c cs =>
      simp only [startsWith, Bool.and_eq_true, decide_eq_true_eq, ih,
        List.cons_prefix_cons]
      exact and_congr_left (fun _ => eq_comm)

theorem strLt_irrefl (u : Str) : strLt u u = false := by
  induction u with
  | nil => rfl
  | cons c cs ih => simp [strLt, ih]

theorem strLt_trans {u v t : Str} (h1 : strLt u v = true) (h2 : strLt v t = true) :
    strLt u t = true := by
  induction u generalizing v t with
  | nil =>
    cases v with
    | nil => exact absurd h1 (by simp [strLt])
    | cons b ys =>
      cases t with
      | nil => exact absurd h2 (by simp [strLt])
      | cons c zs => simp [strLt]
  | cons a xs ih =>
    cases v with
    | nil => exact absurd h1 (by simp [strLt])
    | cons b ys =>
      cases t with
      | nil => exact absurd h2 (by simp [strLt])
      | cons c zs =>
        simp only [strLt] at h1 h2 ⊢
        by_cases hab : a < b
        · by_cases hbc : b < c
          · simp [lt_trans hab hbc]
          · simp only [if_pos hab, if_neg hbc] at h2 ⊢
            by_cases hbc' : b = c
            · subst hbc'; simp [hab]
            · simp [hbc'] at h2
        · simp only [if_neg hab] at h1
          by_cases hab' : a = b
          · subst hab'
            simp only [if_pos rfl] at h1
            by_cases hac : a < c
            · simp [hac]
            · by_cases hac' : a = c
              · subst hac'
                simp only [strLt, if_neg hac, if_pos rfl] at h2 ⊢
                exact ih h1 h2
              · simp only [strLt, if_neg hac] at h2
                simp [hac'] at h2
          · simp [hab'] at h1

theorem strLt_total (u v : Str) : strLt u v = true ∨ strLt v u = true ∨ u = v := by
  induction u generalizing v with
  | nil =>
    cases v with
    | nil => exact Or.inr (Or.inr rfl)
    | cons b ys => exact Or.inl (by simp [strLt])
  | cons a xs ih =>
    cases v with
    | nil => exact Or.inr (Or.inl (by simp [strLt]))
    | cons b ys =>
      rcases lt_trichotomy a b with hab | hab | hab
      · exact Or.inl (by simp [strLt, hab])
      · subst hab
        rcases ih ys with h | h | h
        · exact Or.inl (by simp [strLt, h])
        · exact Or.inr (Or.inl (by simp [strLt, h]))
        · exact Or.inr (Or.inr (by rw [h]))
      · exact Or.inr (Or.inl (by simp [strLt, hab]))

theorem strLt_asymm {u v : Str} (h1 : strLt u v = true) (h2 : strLt v u = true) : False := by
  have := strLt_trans h1 h2
  rw [strLt_irrefl] at this
  exact Bool.false_ne_true this

/-! ## C10 and C7: frame and error-handling behaviour of one traversal step -/

/-- A concrete world where every fetch raises and `urljoin` returns the
href unchanged; used by witnesses. -/
def webEmpty : Web := { fetch := fun _ => .exn, join := fun _ href => href }

/-- Branch equation: the guard drops the URL and returns the state. -/
theorem explore_guard_id (w : Web) (st : CrawlerState) (url root_url : Str)
    (h : normalize_url url ∈ st.visited_urls ∨
      ¬ is_subpath st (normalize_url url) ∨ should_ignore st (normalize_url url)) :
    explore_and_scrape w st url root_url = st := by
  simp only [explore_and_scrape]
  rw [if_pos h]

/-- Branch equation: past the guard, a skipped extension, a transport
error or a non-200 status leave only the visited mark. -/
theorem explore_visited_only (w : Web) (st : CrawlerState) (url root_url : Str)
    (hg : ¬ (normalize_url url ∈ st.visited_urls ∨
      ¬ is_subpath st (normalize_url url) ∨ should_ignore st (normalize_url url)))
    (h : skipExt (normalize_url url) = true ∨ w.fetch (normalize_url url) = .exn ∨
      ∃ status soup, w.fetch (normalize_url url) = .response status soup ∧ status ≠ 200) :
    explore_and_scrape w st url root_url =
      { st with visited_urls := insert (normalize_url url) st.visited_urls } := by
  rw [explore_and_scrape, if_neg hg]
  by_cases hskip : skipExt (normalize_url url)
  · rw [if_pos hskip]
  · rw [if_neg hskip]
    rcases h with h | h | ⟨status, soup, hfetch, hst⟩
    · exact absurd h (by simpa using hskip)
    · rw [h]
    · rw [hfetch]
      exact if_neg hst

/-- Branch equation: past the guard, a 200 response stores the extracted
text and runs link discovery. -/
theorem explore_ok_eq (w : Web) (st : CrawlerState) (url root_url : Str)
    (hg : ¬ (normalize_url url ∈ st.visited_urls ∨
      ¬ is_subpath st (normalize_url url) ∨ should_ignore st (normalize_url url)))
    (hskip : ¬ skipExt (normalize_url url)) {soup : Soup}
    (hfetch : w.fetch (normalize_url url) = .response 200 soup) :
    explore_and_scrape w st url root_url =
      discoverLinks w (normalize_url url)
        (scrape_content
          { st with visited_urls := insert (normalize_url url) st.visited_urls }
          soup (normalize_url url)) soup.hrefs := by
  rw [explore_and_scrape, if_neg hg, if_neg hskip, hfetch]
  rfl

/-- C10: if `explore_and_scrape` is called on a URL whose normalized form
is already visited, or out of scope of every root, or matching an ignore
pattern, it returns with `visited_urls`, `found_urls` and `scraped_data`
all unchanged (the whole state is returned as it was). -/
theorem C10_guard_frame (w : Web) (st : CrawlerState) (url root_url : Str)
    (h : normalize_url url ∈ st.visited_urls ∨
      ¬ is_subpath st (normalize_url url) ∨ should_ignore st (normalize_url url)) :
    explore_and_scrape w st url root_url = st :=
  explore_guard_id w st url root_url h

theorem C10_guard_frame_witness :
    (normalize_url "http://b/x".toList ∈ (initState ["http://a/".toList] []).visited_urls ∨
      ¬ is_subpath (initState ["http://a/".toList] []) (normalize_url "http://b/x".toList) ∨
      should_ignore (initState ["http://a/".toList] []) (normalize_url "http://b/x".toList)) ∧
    explore_and_scrape webEmpty (initState ["http://a/".toList] [])
      "http://b/x".toList "http://a/".toList = initState ["http://a/".toList] [] :=
  ⟨Or.inr (Or.inl (by decide)),
    C10_guard_frame webEmpty (initState ["http://a/".toList] [])
      "http://b/x".toList "http://a/".toList (Or.inr (Or.inl (by decide)))⟩

/-- C7: when the fetch of a URL yields a non-200 status or a transport
error, the URL gets no document-store entry, no link of it is discovered
(`found_urls` unchanged), the only state change is the visited mark; a
repeated call on the same URL is a no-op (no retry can fetch it again),
and the remaining frontier is exactly the old frontier minus this URL. -/
theorem C7_fetch_error_no_entry (w : Web) (st : CrawlerState) (url root_url : Str)
    (hg : ¬ (normalize_url url ∈ st.visited_urls ∨
      ¬ is_subpath st (normalize_url url) ∨ should_ignore st (normalize_url url)))
    (hs : skipExt (normalize_url url) = false)
    (he : ∀ status soup, w.fetch (normalize_url url) = .response status soup → status ≠ 200) :
    explore_and_scrape w st url root_url =
      { st with visited_urls := insert (normalize_url url) st.visited_urls } ∧
    (explore_and_scrape w st url root_url).scraped_data = st.scraped_data ∧
    (explore_and_scrape w st url root_url).found_urls = st.found_urls ∧
    explore_and_scrape w (explore_and_scrape w st url root_url) url root_url =
      explore_and_scrape w st url root_url ∧
    (∀ v, v ∈ (explore_and_scrape w st url root_url).found_urls ∧
        v ∉ (explore_and_scrape w st url root_url).visited_urls ↔
      (v ∈ st.found_urls ∧ v ∉ st.visited_urls) ∧ v ≠ normalize_url url) := by
  have hmain : explore_and_scrape w st url root_url =
      { st with visited_urls := insert (normalize_url url) st.visited_urls } := by
    simp only [explore_and_scrape]
    rw [if_neg hg, if_neg (by simp [hs])]
    cases hfetch : w.fetch (normalize_url url) with
    | response status soup =>
      exact if_neg (he status soup hfetch)
    | exn => rfl
  refine ⟨hmain, by rw [hmain], by rw [hmain], ?_, ?_⟩
  · rw [hmain]
    exact explore_guard_id w _ url root_url (Or.inl (Finset.mem_insert_self _ _))
  · intro v
    rw [hmain]
    simp only [Finset.mem_insert, not_or]
    constructor
    · rintro ⟨hvf, hvne, hvv⟩ ; exact ⟨⟨hvf, hvv⟩, hvne⟩
    · rintro ⟨⟨hvf, hvv⟩, hvne⟩ ; exact ⟨hvf, hvne, hvv⟩

/-- A concrete world whose only page returns HTTP status 404. -/
def web404 : Web :=
  { fetch := fun _ => .response 404 ⟨"x".toList, []⟩, join := fun _ href => href }

theorem C7_fetch_error_no_entry_witness :
    (¬ (normalize_url "http://a/".toList ∈ (initState ["http://a/".toList] []).visited_urls ∨
      ¬ is_subpath (initState ["http://a/".toList] []) (normalize_url "http://a/".toList) ∨
      should_ignore (initState ["http://a/".toList] []) (normalize_url "http://a/".toList))) ∧
    explore_and_scrape web404 (initState ["http://a/".toList] [])
        "http://a/".toList "http://a/".toList =
      { initState ["http://a/".toList] [] with
          visited_urls := insert (normalize_url "http://a/".toList)
            (initState ["http://a/".toList] []).visited_urls } :=
  ⟨by decide,
    (C7_fetch_error_no_entry web404 (initState ["http://a/".toList] [])
      "http://a/".toList "http://a/".toList (by decide) (by decide)
      (fun status soup h => by
        simp only [web404] at h
        cases h
        decide)).1⟩

/-! ## C3: the scope test -/

/-- The scope test as the claim words it: the URL's path component, as a
string, starts with the root's path component.  This definition follows
the specification text, for comparison with the source's `is_subpath`. -/
def in_scope_spec (url root_url : Str) : Bool :=
  startsWith (urlsplitQF url).path (urlsplitQF root_url).path

/-- C3 counterexample: for root `http://a/doc` and URL `http://b/docs`,
the URL's path `/docs` starts with the root's path `/doc`, yet
`is_subpath` rejects the URL — the code compares whole URL strings, so
the decision does not depend only on the two path components. -/
theorem C3_counterexample :
    in_scope_spec "http://b/docs".toList "http://a/doc".toList = true ∧
    is_subpath (initState ["http://a/doc".toList] []) "http://b/docs".toList = false := by
  decide

/-- C3 amended: `is_subpath` is a purely textual prefix test on whole
normalized URL strings — a URL is in scope exactly when some root URL is
a string prefix of it (so `http://h/docsx` is in scope for root
`http://h/doc`); the decision depends on the full URL strings, not only
on their path components. -/
theorem C3_scope_is_string_prefix_on_whole_url :
    (∀ (st : CrawlerState) (url : Str),
      is_subpath st url = true ↔ ∃ root ∈ st.root_urls, root <+: url) ∧
    is_subpath (initState ["http://h/doc".toList] []) "http://h/docsx".toList = true := by
  constructor
  · intro st url
    simp only [is_subpath, List.any_eq_true, startsWith_iff]
  · decide

/-! ## C2: what link discovery adds to the frontier -/

/-- The admissibility filter of line 82-83 without the frontier-membership
test: not a skipped extension, in scope, not ignored. -/
def admissible (st : CrawlerState) (full_url : Str) : Bool :=
  !skipExt full_url && is_subpath st full_url && !should_ignore st full_url

theorem discoverLinks_immutable (w : Web) (base : Str) (st : CrawlerState)
    (hrefs : List Str) :
    (discoverLinks w base st hrefs).root_urls = st.root_urls ∧
    (discoverLinks w base st hrefs).ignore_urls = st.ignore_urls ∧
    (discoverLinks w base st hrefs).visited_urls = st.visited_urls ∧
    (discoverLinks w base st hrefs).scraped_data = st.scraped_data := by
  induction hrefs generalizing st with
  | nil => exact ⟨rfl, rfl, rfl, rfl⟩
  | cons href t ih =>
    simp only [discoverLinks, List.foldl_cons]
    by_cases h : ¬ skipExt (normalize_url (w.join base href)) ∧
        normalize_url (w.join base href) ∉ st.found_urls ∧
        is_subpath st (normalize_url (w.join base href)) ∧
        ¬ should_ignore st (normalize_url (w.join base href))
    · rw [if_pos h]; exact ih _
    · rw [if_neg h]; exact ih _

/-- Membership in the frontier after link discovery: the old frontier,
plus those candidates of the page that pass the admissibility filter. -/
theorem discoverLinks_found_mem (w : Web) (base : Str) (st : CrawlerState)
    (hrefs : List Str) (v : Str) :
    v ∈ (discoverLinks w base st hrefs).found_urls ↔
      v ∈ st.found_urls ∨ (admissible st v = true ∧
        ∃ href ∈ hrefs, v = normalize_url (w.join base href)) := by
  induction hrefs generalizing st with
  | nil => simp [discoverLinks]
  | cons href t ih =>
    simp only [discoverLinks, List.foldl_cons] at ih ⊢
    have hadm : ∀ u, admissible st u = true ↔
        skipExt u = false ∧ is_subpath st u = true ∧ should_ignore st u = false := by
      intro u
      simp only [admissible, Bool.and_eq_true, Bool.not_eq_true']
      tauto
    by_cases h : ¬ skipExt (normalize_url (w.join base href)) ∧
        normalize_url (w.join base href) ∉ st.found_urls ∧
        is_subpath st (normalize_url (w.join base href)) ∧
        ¬ should_ignore st (normalize_url (w.join base href))
    · rw [if_pos h, ih]
      have hfix :
          admissible { st with found_urls := insert (normalize_url (w.join base href)) st.found_urls }
            = admissible st := rfl
      rw [hfix]
      simp only [Finset.mem_insert, List.mem_cons]
      constructor
      · rintro (h1 | h2)
        · rcases h1 with rfl | h1
          · refine Or.inr ⟨(hadm _).2 ⟨?_, h.2.2.1, ?_⟩, href, Or.inl rfl, rfl⟩
            · simpa using h.1
            · simpa using h.2.2.2
          · exact Or.inl h1
        · rcases h2 with ⟨ha, href', hh, hv⟩
          exact Or.inr ⟨ha, href', Or.inr hh, hv⟩
      · rintro (h1 | ⟨ha, href', hh, hv⟩)
        · exact Or.inl (Or.inr h1)
        · rcases hh with rfl | hh
          · exact Or.inl (Or.inl hv)
          · exact Or.inr ⟨ha, href', hh, hv⟩
    · rw [if_neg h, ih]
      simp only [List.mem_cons]
      constructor
      · rintro (h1 | ⟨ha, href', hh, hv⟩)
        · exact Or.inl h1
        · exact Or.inr ⟨ha, href', Or.inr hh, hv⟩
      · rintro (h1 | ⟨ha, href', hh, hv⟩)
        · exact Or.inl h1
        · rcases hh with heq | hh
          · have hv' : v = normalize_url (w.join base href) := by rw [hv, heq]
            rw [hadm] at ha
            rcases Classical.em (v ∈ st.found_urls) with hf | hf
            · exact Or.inl hf
            · rw [hv'] at ha hf
              exact absurd ⟨by simp [ha.1], hf, ha.2.1, by simp [ha.2.2]⟩ h
          · exact Or.inr ⟨ha, href', hh, hv⟩

/-- C2 counterexample, two concrete crawls.  First: the page at the root
`http://a/` links back to the root; the root is already in the Visited
Set when link discovery runs (it was marked visited before the fetch),
yet it is added to `found_urls` — the code checks only frontier
membership, not visited membership.  Second: with roots `http://a/` and
`http://b/`, a page of root `http://a/` links to `http://b/x`, which is
outside the scope of the relevant root `http://a/` but is still added to
the (single, shared) frontier because it is in scope of the other root. -/
def webSelfLink : Web :=
  { fetch := fun u =>
      if u = "http://a/".toList then .response 200 ⟨"t".toList, ["http://a/".toList]⟩
      else .exn
    join := fun _ href => href }

def webCross : Web :=
  { fetch := fun u =>
      if u = "http://a/".toList then .response 200 ⟨"t".toList, ["http://b/x".toList]⟩
      else .exn
    join := fun _ href => href }

theorem C2_counterexample :
    ("http://a/".toList ∈ (explore_and_scrape webSelfLink (initState ["http://a/".toList] [])
        "http://a/".toList "http://a/".toList).found_urls ∧
      "http://a/".toList ∉ (initState ["http://a/".toList] []).found_urls ∧
      "http://a/".toList ∈ (explore_and_scrape webSelfLink (initState ["http://a/".toList] [])
        "http://a/".toList "http://a/".toList).visited_urls) ∧
    ("http://b/x".toList ∈ (explore_and_scrape webCross
        (initState ["http://a/".toList, "http://b/".toList] [])
        "http://a/".toList "http://a/".toList).found_urls ∧
      startsWith "http://b/x".toList "http://a/".toList = false) := by
  decide

/-- C2 amended: every URL added to the frontier by link discovery does
not end in a skipped extension, is in scope of **some** configured root
(not necessarily the root currently being crawled), and matches no ignore
pattern; it was not already in the frontier, but it may already be in the
Visited Set. -/
theorem C2_frontier_additions_admissible (w : Web) (base : Str) (st : CrawlerState)
    (hrefs : List Str) (full_url : Str)
    (hmem : full_url ∈ (discoverLinks w base st hrefs).found_urls)
    (hnew : full_url ∉ st.found_urls) :
    skipExt full_url = false ∧ is_subpath st full_url = true ∧
      should_ignore st full_url = false := by
  rw [discoverLinks_found_mem] at hmem
  rcases hmem with h | h
  · exact absurd h hnew
  · have hadm := h.1
    simp only [admissible, Bool.and_eq_true, Bool.not_eq_true'] at hadm
    exact ⟨hadm.1.1, hadm.1.2, hadm.2⟩

theorem C2_frontier_additions_admissible_witness :
    ("http://b/x".toList ∈ (discoverLinks webCross "http://a/".toList
        (initState ["http://a/".toList, "http://b/".toList] [])
        ["http://b/x".toList]).found_urls ∧
      "http://b/x".toList ∉ (initState ["http://a/".toList, "http://b/".toList] []).found_urls) ∧
    (skipExt "http://b/x".toList = false ∧
      is_subpath (initState ["http://a/".toList, "http://b/".toList] [])
        "http://b/x".toList = true ∧
      should_ignore (initState ["http://a/".toList, "http://b/".toList] [])
        "http://b/x".toList = false) :=
  ⟨⟨by decide, by decide⟩,
    C2_frontier_additions_admissible webCross "http://a/".toList
      (initState ["http://a/".toList, "http://b/".toList] [])
      ["http://b/x".toList] "http://b/x".toList (by decide) (by decide)⟩

/-! ## C4: the serializer -/

theorem pairLt_irrefl (p : Str × Str) : pairLt p p = false := by
  simp [pairLt, strLt_irrefl]

theorem pairLt_trans {p q r : Str × Str} (h1 : pairLt p q = true) (h2 : pairLt q r = true) :
    pairLt p r = true := by
  simp only [pairLt, Bool.or_eq_true, Bool.and_eq_true, decide_eq_true_eq] at h1 h2 ⊢
  rcases h1 with h1 | ⟨e1, l1⟩
  · rcases h2 with h2 | ⟨e2, l2⟩
    · exact Or.inl (strLt_trans h1 h2)
    · exact Or.inl (by rw [← e2]; exact h1)
  · rcases h2 with h2 | ⟨e2, l2⟩
    · exact Or.inl (by rw [e1]; exact h2)
    · exact Or.inr ⟨e1.trans e2, strLt_trans l1 l2⟩

theorem pairLt_total (p q : Str × Str) :
    pairLt p q = true ∨ pairLt q p = true ∨ p = q := by
  rcases strLt_total p.1 q.1 with h | h | h
  · exact Or.inl (by simp [pairLt, h])
  · exact Or.inr (Or.inl (by simp [pairLt, h]))
  · rcases strLt_total p.2 q.2 with h2 | h2 | h2
    · exact Or.inl (by simp [pairLt, h, h2])
    · exact Or.inr (Or.inl (by simp [pairLt, h.symm, h2]))
    · exact Or.inr (Or.inr (Prod.ext h h2))

theorem pairLe_trans (a b c : Str × Str) (h1 : pairLe a b = true) (h2 : pairLe b c = true) :
    pairLe a c = true := by
  simp only [pairLe, Bool.not_eq_true'] at h1 h2 ⊢
  by_contra hne
  have hca : pairLt c a = true := by
    cases hx : pairLt c a
    · exact absurd hx hne
    · rfl
  rcases pairLt_total a b with hab | hab | hab
  · exact absurd (pairLt_trans hca hab) (by simp [h2])
  · exact absurd hab (by simp [h1])
  · subst hab
    exact absurd hca (by simp [h2])

theorem pairLe_total (a b : Str × Str) : (pairLe a b || pairLe b a) = true := by
  simp only [pairLe, Bool.or_eq_true, Bool.not_eq_true']
  cases h1 : pairLt b a
  · exact Or.inl rfl
  · cases h2 : pairLt a b
    · exact Or.inr rfl
    · have hbb := pairLt_trans h1 h2
      rw [pairLt_irrefl] at hbb
      exact absurd hbb (by simp)

theorem pairLe_antisymm {a b : Str × Str} (h1 : pairLe a b = true) (h2 : pairLe b a = true) :
    a = b := by
  simp only [pairLe, Bool.not_eq_true'] at h1 h2
  rcases pairLt_total a b with h | h | h
  · exact absurd h (by simp [h2])
  · exact absurd h (by simp [h1])
  · exact h

theorem foldl_append_blocks {α : Type} (f : α → Str) (l : List α) (acc : Str) :
    l.foldl (fun a p => a ++ f p) acc = acc ++ (l.map f).flatten := by
  induction l generalizing acc with
  | nil => simp
  | cons p t ih => simp [ih, List.append_assoc]

/-- C4: `convert_to_text` renders exactly the concatenation, over the
entries in sorted order, of the per-entry blocks
`url`, `"""`, `content`, `"""`, blank line — and nothing else;
`sort_scraped_data` is a permutation of the document store whose keys are
strictly increasing in Python string order, so entry order in the output
follows the sorted key order exactly. -/
theorem C4_serializer_sorted_blocks (m : List (Str × Str))
    (hk : (m.map Prod.fst).Nodup) :
    convert_to_text m = ((sort_scraped_data m).map entryBlock).flatten ∧
    (sort_scraped_data m).Perm m ∧
    List.Pairwise (fun p q : Str × Str => strLt p.1 q.1 = true) (sort_scraped_data m) := by
  refine ⟨?_, List.mergeSort_perm m pairLe, ?_⟩
  · unfold convert_to_text
    simpa using foldl_append_blocks entryBlock (sort_scraped_data m) []
  · have hsorted : List.Pairwise (fun a b => pairLe a b = true) (sort_scraped_data m) :=
      @List.sorted_mergeSort _ pairLe pairLe_trans pairLe_total m
    have hperm : (sort_scraped_data m).Perm m := List.mergeSort_perm m pairLe
    have hknodup : ((sort_scraped_data m).map Prod.fst).Nodup :=
      ((hperm.map Prod.fst).nodup_iff).2 hk
    have hkeys : List.Pairwise (fun p q : Str × Str => p.1 ≠ q.1) (sort_scraped_data m) :=
      (List.pairwise_map).1 hknodup
    refine List.Pairwise.imp ?_ (hsorted.and hkeys)
    intro a b hab
    obtain ⟨hle, hne⟩ := hab
    simp only [pairLe, Bool.not_eq_true'] at hle
    rcases strLt_total a.1 b.1 with h | h | h
    · exact h
    · exfalso
      have hba : pairLt b a = true := by simp [pairLt, h]
      rw [hle] at hba
      exact absurd hba (by simp)
    · exact absurd h hne

theorem C4_serializer_sorted_blocks_witness :
    ((([("b".toList, "2".toList), ("a".toList, "1".toList)] :
        List (Str × Str)).map Prod.fst).Nodup) ∧
    (convert_to_text [("b".toList, "2".toList), ("a".toList, "1".toList)] =
      ((sort_scraped_data [("b".toList, "2".toList), ("a".toList, "1".toList)]).map
        entryBlock).flatten ∧
    (sort_scraped_data [("b".toList, "2".toList), ("a".toList, "1".toList)]).Perm
      [("b".toList, "2".toList), ("a".toList, "1".toList)] ∧
    List.Pairwise (fun p q : Str × Str => strLt p.1 q.1 = true)
      (sort_scraped_data [("b".toList, "2".toList), ("a".toList, "1".toList)])) :=
  ⟨by decide, C4_serializer_sorted_blocks
    [("b".toList, "2".toList), ("a".toList, "1".toList)] (by decide)⟩

/-! ## C9: URL normalization — character-level lemmas -/

theorem isAsciiAlpha_schemeChar {c : Char} (h : isAsciiAlpha c = true) :
    schemeChar c = true := by
  simp [schemeChar, h]

/-- The net effect of the params round-trip of `normalize_url` on a split
URL: the path loses a trailing `;` exactly when the scheme uses params
and the first `;` at or after the last `/` is final. -/
def paramsRound (v : SplitUrl) : SplitUrl :=
  if v.scheme ∈ usesParams ∧ ';' ∈ v.path ∧ (splitParams v.path).2 = [] then
    ⟨v.scheme, v.netloc, (splitParams v.path).1⟩
  else v

theorem paramsRound_config (v : SplitUrl) :
    (paramsRound v).scheme = v.scheme ∧ (paramsRound v).netloc = v.netloc := by
  rw [paramsRound]
  by_cases hgate : v.scheme ∈ usesParams ∧ ';' ∈ v.path ∧ (splitParams v.path).2 = []
  · rw [if_pos hgate]
    exact ⟨rfl, rfl⟩
  · rw [if_neg hgate]
    exact ⟨rfl, rfl⟩

theorem dictInsert_not_mem {m : List (Str × Str)} {k : Str} (v : Str)
    (h : k ∉ m.map Prod.fst) : dictInsert m k v = m ++ [(k, v)] := by
  rw [dictInsert, if_neg h]

/-- The store invariant: scraped keys are distinct and all visited. -/
def StoreInv (st : CrawlerState) : Prop :=
  (st.scraped_data.map Prod.fst).Nodup ∧
    ∀ k ∈ st.scraped_data.map Prod.fst, k ∈ st.visited_urls

/-- Provenance of every document-store entry: its text is the HTML
extraction of a status-200 response for its key, and its key has no
skipped extension (so no value ever comes from `scrape_pdf`). -/
def StoreProv (w : Web) (st : CrawlerState) : Prop :=
  ∀ p ∈ st.scraped_data,
    ∃ soup, w.fetch p.1 = .response 200 soup ∧ p.2 = soup.text ∧ skipExt p.1 = false

/-- One call of `explore_and_scrape`, summarized: nothing but the session
sets change, `visited_urls` grows by at most the normalized URL,
`found_urls` only grows, and the document store either stays or receives
the extracted text of a 200 response for the freshly visited URL. -/
theorem explore_main (w : Web) (st : CrawlerState) (url root_url : Str) :
    (explore_and_scrape w st url root_url).root_urls = st.root_urls ∧
    (explore_and_scrape w st url root_url).ignore_urls = st.ignore_urls ∧
    st.visited_urls ⊆ (explore_and_scrape w st url root_url).visited_urls ∧
    (explore_and_scrape w st url root_url).visited_urls ⊆
      insert (normalize_url url) st.visited_urls ∧
    st.found_urls ⊆ (explore_and_scrape w st url root_url).found_urls ∧
    ((explore_and_scrape w st url root_url).scraped_data = st.scraped_data ∨
      ∃ soup, w.fetch (normalize_url url) = .response 200 soup ∧
        skipExt (normalize_url url) = false ∧ normalize_url url ∉ st.visited_urls ∧
        (explore_and_scrape w st url root_url).visited_urls =
          insert (normalize_url url) st.visited_urls ∧
        (explore_and_scrape w st url root_url).scraped_data =
          dictInsert st.scraped_data (normalize_url url) soup.text) := by
  by_cases hg : normalize_url url ∈ st.visited_urls ∨
      ¬ is_subpath st (normalize_url url) ∨ should_ignore st (normalize_url url)
  · rw [explore_guard_id w st url root_url hg]
    exact ⟨rfl, rfl, Finset.Subset.refl _, Finset.subset_insert _ _,
      Finset.Subset.refl _, Or.inl rfl⟩
  · have hnv : normalize_url url ∉ st.visited_urls := fun hc => hg (Or.inl hc)
    by_cases hskip : skipExt (normalize_url url)
    · rw [explore_visited_only w st url root_url hg (Or.inl hskip)]
      exact ⟨rfl, rfl, Finset.subset_insert _ _, Finset.Subset.refl _,
        Finset.Subset.refl _, Or.inl rfl⟩
    · cases hfetch : w.fetch (normalize_url url) with
      | exn =>
        rw [explore_visited_only w st url root_url hg (Or.inr (Or.inl hfetch))]
        exact ⟨rfl, rfl, Finset.subset_insert _ _, Finset.Subset.refl _,
          Finset.Subset.refl _, Or.inl rfl⟩
      | response status soup =>
        by_cases h200 : status = 200
        · subst h200
          rw [explore_ok_eq w st url root_url hg hskip hfetch]
          obtain ⟨hr, hi, hv, hsc⟩ := discoverLinks_immutable w (normalize_url url)
            (scrape_content { st with
              visited_urls := insert (normalize_url url) st.visited_urls }
              soup (normalize_url url)) soup.hrefs
          refine ⟨hr, hi, ?_, ?_, ?_, ?_⟩
          · rw [hv]
            exact Finset.subset_insert _ _
          · rw [hv]
            exact Finset.Subset.refl _
          · intro v hvf
            rw [discoverLinks_found_mem]
            exact Or.inl hvf
          · right
            refine ⟨soup, rfl, Bool.not_eq_true _ ▸ hskip, hnv, by rw [hv]; rfl, ?_⟩
            rw [hsc]
            rfl
        · rw [explore_visited_only w st url root_url hg
            (Or.inr (Or.inr ⟨status, soup, hfetch, h200⟩))]
          exact ⟨rfl, rfl, Finset.subset_insert _ _, Finset.Subset.refl _,
            Finset.Subset.refl _, Or.inl rfl⟩

/-- When the call fetches (nonempty log) the normalized URL was
unvisited, has no skipped extension, and ends up visited. -/
theorem exploreFetchLog_cases (w : Web) (st : CrawlerState) (url root_url : Str) :
    exploreFetchLog st url = [] ∨
    (exploreFetchLog st url = [normalize_url url] ∧ normalize_url url ∉ st.visited_urls ∧
      skipExt (normalize_url url) = false ∧
      normalize_url url ∈ (explore_and_scrape w st url root_url).visited_urls) := by
  rw [exploreFetchLog]
  by_cases hg : normalize_url url ∈ st.visited_urls ∨
      ¬ is_subpath st (normalize_url url) ∨ should_ignore st (normalize_url url)
  · left
    rw [if_pos hg]
  · rw [if_neg hg]
    by_cases hskip : skipExt (normalize_url url)
    · left
      rw [if_pos hskip]
    · right
      refine ⟨by rw [if_neg hskip], fun hc => hg (Or.inl hc),
        Bool.not_eq_true _ ▸ hskip, ?_⟩
      cases hfetch : w.fetch (normalize_url url) with
      | exn =>
        rw [explore_visited_only w st url root_url hg (Or.inr (Or.inl hfetch))]
        exact Finset.mem_insert_self _ _
      | response status soup =>
        by_cases h200 : status = 200
        · subst h200
          rw [explore_ok_eq w st url root_url hg hskip hfetch]
          obtain ⟨-, -, hv, -⟩ := discoverLinks_immutable w (normalize_url url)
            (scrape_content { st with
              visited_urls := insert (normalize_url url) st.visited_urls }
              soup (normalize_url url)) soup.hrefs
          rw [hv]
          exact Finset.mem_insert_self _ _
        · rw [explore_visited_only w st url root_url hg
            (Or.inr (Or.inr ⟨status, soup, hfetch, h200⟩))]
          exact Finset.mem_insert_self _ _

theorem explore_preserves_inv {w : Web} {st : CrawlerState} (url root_url : Str)
    (hinv : StoreInv st) :
    StoreInv (explore_and_scrape w st url root_url) ∧
      st.scraped_data <+: (explore_and_scrape w st url root_url).scraped_data := by
  obtain ⟨hnd, hkeys⟩ := hinv
  obtain ⟨-, -, hvmono, hvb, -, hsc⟩ := explore_main w st url root_url
  rcases hsc with hsc | ⟨soup, -, -, hnv, hveq, hsc⟩
  · refine ⟨⟨by rw [hsc]; exact hnd, ?_⟩, by rw [hsc]⟩
    intro k hk
    rw [hsc] at hk
    exact hvmono (hkeys k hk)
  · have hknotin : normalize_url url ∉ st.scraped_data.map Prod.fst := by
      intro hc
      exact hnv (hkeys _ hc)
    have hscmap : (explore_and_scrape w st url root_url).scraped_data
        = st.scraped_data ++ [(normalize_url url, soup.text)] := by
      rw [hsc, dictInsert_not_mem _ hknotin]
    refine ⟨⟨?_, ?_⟩, ⟨[(normalize_url url, soup.text)], hscmap.symm⟩⟩
    · rw [hscmap, List.map_append]
      simp only [List.map_cons, List.map_nil]
      rw [List.nodup_append]
      exact ⟨hnd, List.nodup_singleton _, by simpa using hknotin⟩
    · intro k hk
      rw [hscmap, List.map_append] at hk
      rcases List.mem_append.1 hk with hk | hk
      · exact hvmono (hkeys k hk)
      · simp only [List.map_cons, List.map_nil, List.mem_singleton] at hk
        subst hk
        rw [hveq]
        exact Finset.mem_insert_self _ _

theorem explore_preserves_prov {w : Web} {st : CrawlerState} (url root_url : Str)
    (hinv : StoreInv st) (hprov : StoreProv w st) :
    StoreProv w (explore_and_scrape w st url root_url) := by
  obtain ⟨-, hkeys⟩ := hinv
  obtain ⟨-, -, -, -, -, hsc⟩ := explore_main w st url root_url
  rcases hsc with hsc | ⟨soup, hfetch, hskip, hnv, hveq, hsc⟩
  · intro p hp
    rw [hsc] at hp
    exact hprov p hp
  · intro p hp
    have hknotin : normalize_url url ∉ st.scraped_data.map Prod.fst := by
      intro hc
      exact hnv (hkeys _ hc)
    rw [hsc, dictInsert_not_mem _ hknotin] at hp
    rcases List.mem_append.1 hp with hp | hp
    · exact hprov p hp
    · simp only [List.mem_singleton] at hp
      subst hp
      exact ⟨soup, hfetch, rfl, hskip⟩

/-- Facts that propagate along one complete frontier loop: the store
invariant and provenance persist, the store only grows by appending, the
visited set only grows, every fetched URL was unvisited at its step and
visited after it, no fetched URL has a skipped extension, and no URL is
fetched twice. -/
theorem loopRun_facts {w : Web} {root_url : Str} {st t : CrawlerState} {L : List Str}
    (h : LoopRun w root_url st t L) :
    StoreInv st → StoreProv w st →
    StoreInv t ∧ StoreProv w t ∧ st.scraped_data <+: t.scraped_data ∧
    st.visited_urls ⊆ t.visited_urls ∧
    (∀ u ∈ L, u ∉ st.visited_urls) ∧ (∀ u ∈ L, u ∈ t.visited_urls) ∧
    (∀ u ∈ L, skipExt u = false) ∧ L.Nodup := by
  induction h with
  | done st hdone =>
    intro hinv hprov
    exact ⟨hinv, hprov, List.prefix_refl _, Finset.Subset.refl _,
      by simp, by simp, by simp, List.nodup_nil⟩
  | step st u hu hv hrest ih =>
    intro hinv hprov
    obtain ⟨hinv1, hpre1⟩ := explore_preserves_inv u root_url hinv
    have hprov1 := explore_preserves_prov u root_url hinv hprov
    obtain ⟨ht_inv, ht_prov, ht_pre, ht_vmono, hLnotv, hLinv, hLskip, hLnd⟩ := ih hinv1 hprov1
    obtain ⟨-, -, hvmono, hvb, -, -⟩ := explore_main w st u root_url
    rcases exploreFetchLog_cases w st u root_url with hlog | ⟨hlog, hnu_nv, hnu_skip, hnu_v⟩
    · rw [hlog, List.nil_append]
      refine ⟨ht_inv, ht_prov, hpre1.trans ht_pre, hvmono.trans ht_vmono,
        ?_, hLinv, hLskip, hLnd⟩
      intro v hvL hvst
      exact hLnotv v hvL (hvmono hvst)
    · rw [hlog, List.singleton_append]
      refine ⟨ht_inv, ht_prov, hpre1.trans ht_pre, hvmono.trans ht_vmono, ?_, ?_, ?_, ?_⟩
      · intro v hvL
        rcases List.mem_cons.1 hvL with rfl | hvL
        · exact hnu_nv
        · intro hvst
          exact hLnotv v hvL (hvmono hvst)
      · intro v hvL
        rcases List.mem_cons.1 hvL with rfl | hvL
        · exact ht_vmono hnu_v
        · exact hLinv v hvL
      · intro v hvL
        rcases List.mem_cons.1 hvL with rfl | hvL
        · exact hnu_skip
        · exact hLskip v hvL
      · rw [List.nodup_cons]
        exact ⟨fun hc => hLnotv _ hc hnu_v, hLnd⟩

/-- The same facts propagated through a whole `crawl_and_scrape`
execution over the list of roots. -/
theorem crawlRun_facts {w : Web} {st : CrawlerState} {roots : List Str} {t : CrawlerState}
    {L : List Str} (h : CrawlRun w st roots t L) :
    StoreInv st → StoreProv w st →
    StoreInv t ∧ StoreProv w t ∧ st.scraped_data <+: t.scraped_data ∧
    st.visited_urls ⊆ t.visited_urls ∧
    (∀ u ∈ L, u ∉ st.visited_urls) ∧ (∀ u ∈ L, u ∈ t.visited_urls) ∧
    (∀ u ∈ L, skipExt u = false) ∧ L.Nodup := by
  induction h with
  | nil st =>
    intro hinv hprov
    exact ⟨hinv, hprov, List.prefix_refl _, Finset.Subset.refl _,
      by simp, by simp, by simp, List.nodup_nil⟩
  | cons st root_url roots hloop hrest ih =>
    rename_i st1 L1 t2 L2
    intro hinv hprov
    obtain ⟨hinv0, hpre0⟩ := explore_preserves_inv root_url root_url hinv
    have hprov0 := explore_preserves_prov root_url root_url hinv hprov
    obtain ⟨hinv1, hprov1, hpre1, hvmono1, hL1notv, hL1v, hL1skip, hL1nd⟩ :=
      loopRun_facts hloop hinv0 hprov0
    obtain ⟨hinvt, hprovt, hpret, hvmonot, hL2notv, hL2v, hL2skip, hL2nd⟩ := ih hinv1 hprov1
    obtain ⟨-, -, hvmono0, hvb0, -, -⟩ := explore_main w st root_url root_url
    have hL12notv : ∀ v ∈ L1 ++ L2, v ∉ st.visited_urls := by
      intro v hv hvst
      rcases List.mem_append.1 hv with hv | hv
      · exact hL1notv v hv (hvmono0 hvst)
      · exact hL2notv v hv (hvmono1 (hvmono0 hvst))
    have hL12v : ∀ v ∈ L1 ++ L2, v ∈ t2.visited_urls := by
      intro v hv
      rcases List.mem_append.1 hv with hv | hv
      · exact hvmonot (hL1v v hv)
      · exact hL2v v hv
    have hL12skip : ∀ v ∈ L1 ++ L2, skipExt v = false := by
      intro v hv
      rcases List.mem_append.1 hv with hv | hv
      · exact hL1skip v hv
      · exact hL2skip v hv
    have hL12nd : (L1 ++ L2).Nodup := by
      rw [List.nodup_append]
      refine ⟨hL1nd, hL2nd, ?_⟩
      intro v hv1 hv2
      exact hL2notv v hv2 (hL1v v hv1)
    rcases exploreFetchLog_cases w st root_url root_url with hlog |
      ⟨hlog, hnu_nv, hnu_skip, hnu_v⟩
    · rw [hlog, List.nil_append]
      exact ⟨hinvt, hprovt, (hpre0.trans hpre1).trans hpret,
        ((hvmono0.trans hvmono1).trans hvmonot), hL12notv, hL12v, hL12skip, hL12nd⟩
    · rw [hlog, List.append_assoc, List.singleton_append]
      refine ⟨hinvt, hprovt, (hpre0.trans hpre1).trans hpret,
        ((hvmono0.trans hvmono1).trans hvmonot), ?_, ?_, ?_, ?_⟩
      · intro v hvL
        rcases List.mem_cons.1 hvL with rfl | hvL
        · exact hnu_nv
        · exact hL12notv v hvL
      · intro v hvL
        rcases List.mem_cons.1 hvL with rfl | hvL
        · exact hvmonot (hvmono1 hnu_v)
        · exact hL12v v hvL
      · intro v hvL
        rcases List.mem_cons.1 hvL with rfl | hvL
        · exact hnu_skip
        · exact hL12skip v hvL
      · rw [List.nodup_cons]
        refine ⟨?_, hL12nd⟩
        intro hc
        rcases List.mem_append.1 hc with hc | hc
        · exact hL1notv _ hc hnu_v
        · exact hL2notv _ hc (hvmono1 hnu_v)

theorem storeInv_initState (root_urls ignore_urls : List Str) :
    StoreInv (initState root_urls ignore_urls) :=
  ⟨List.nodup_nil, fun k hk => by simp [initState] at hk⟩

theorem storeProv_initState (w : Web) (root_urls ignore_urls : List Str) :
    StoreProv w (initState root_urls ignore_urls) :=
  fun p hp => by simp [initState] at hp

/-- C1: `explore_and_scrape` adds the normalized URL to the Visited Set
at the moment processing begins, before `requests.get`, and the guard
drops any URL already visited; consequently over any completed crawl the
fetch log is duplicate-free (no URL is fetched more than once, whatever
the fetch outcomes), and every fetched URL is in the final Visited Set. -/
theorem C1_no_url_fetched_twice (w : Web) (root_urls ignore_urls : List Str)
    (t : CrawlerState) (L : List Str) (hrun : CrawlExec w root_urls ignore_urls t L) :
    L.Nodup ∧ ∀ u ∈ L, u ∈ t.visited_urls := by
  obtain ⟨-, -, -, -, -, hLv, -, hLnd⟩ :=
    crawlRun_facts hrun (storeInv_initState root_urls ignore_urls)
      (storeProv_initState w root_urls ignore_urls)
  exact ⟨hLnd, hLv⟩

theorem C1_no_url_fetched_twice_witness :
    CrawlExec webEmpty ["http://a/".toList] []
      (explore_and_scrape webEmpty (initState ["http://a/".toList] [])
        "http://a/".toList "http://a/".toList) ["http://a/".toList] ∧
    (["http://a/".toList] : List Str).Nodup ∧
    ∀ u ∈ (["http://a/".toList] : List Str),
      u ∈ (explore_and_scrape webEmpty (initState ["http://a/".toList] [])
        "http://a/".toList "http://a/".toList).visited_urls := by
  have hrun : CrawlExec webEmpty ["http://a/".toList] []
      (explore_and_scrape webEmpty (initState ["http://a/".toList] [])
        "http://a/".toList "http://a/".toList) ["http://a/".toList] := by
    show CrawlRun webEmpty _ _ _ _
    have hroots : (initState ["http://a/".toList] []).root_urls = ["http://a/".toList] := by
      decide
    rw [hroots]
    have h := @CrawlRun.cons webEmpty (initState ["http://a/".toList] [])
      "http://a/".toList [] _ _ _ _
      (LoopRun.done _ (by decide)) (CrawlRun.nil _)
    simpa using h
  refine ⟨hrun, by decide, ?_⟩
  have := C1_no_url_fetched_twice webEmpty ["http://a/".toList] [] _ _ hrun
  exact this.2

/-- `WebCrawlerScraper.scrape_pdf`: store the text extracted from a PDF
payload under `url`, or leave the store unchanged when extraction raises
(the `except` branch).  No definition of the crawl (`explore_and_scrape`,
`LoopRun`, `CrawlRun`, `CrawlExec`) refers to this function: the
skipped-extension check returns before `.pdf` URLs are ever fetched, so
this code path is unreachable during a crawl. -/
def scrape_pdf (st : CrawlerState) (pdfText : Option Str) (url : Str) : CrawlerState :=
  match pdfText with
  | some text => { st with scraped_data := dictInsert st.scraped_data url text }
  | none => st

/-- C6: over any completed crawl, no URL with a skipped extension
(`.pdf`, `.jpg`, `.jpeg`) is ever fetched (it never appears in the fetch
log, hence is never mined for links), and every Document Store value is
the HTML extraction of a status-200 response for its key — none comes
from `scrape_pdf`, whose key would have `skipExt = true`. -/
theorem C6_skip_extensions_never_fetched (w : Web) (root_urls ignore_urls : List Str)
    (t : CrawlerState) (L : List Str) (hrun : CrawlExec w root_urls ignore_urls t L) :
    (∀ u ∈ L, skipExt u = false) ∧
    (∀ p ∈ t.scraped_data, ∃ soup, w.fetch p.1 = .response 200 soup ∧
      p.2 = soup.text ∧ skipExt p.1 = false) := by
  obtain ⟨-, hprovt, -, -, -, -, hLskip, -⟩ :=
    crawlRun_facts hrun (storeInv_initState root_urls ignore_urls)
      (storeProv_initState w root_urls ignore_urls)
  exact ⟨hLskip, hprovt⟩

theorem C6_skip_extensions_never_fetched_witness :
    CrawlExec webEmpty ["http://a/".toList] []
      (explore_and_scrape webEmpty (initState ["http://a/".toList] [])
        "http://a/".toList "http://a/".toList) ["http://a/".toList] ∧
    ∀ u ∈ (["http://a/".toList] : List Str), skipExt u = false := by
  have hrun : CrawlExec webEmpty ["http://a/".toList] []
      (explore_and_scrape webEmpty (initState ["http://a/".toList] [])
        "http://a/".toList "http://a/".toList) ["http://a/".toList] := by
    show CrawlRun webEmpty _ _ _ _
    have hroots : (initState ["http://a/".toList] []).root_urls = ["http://a/".toList] := by
      decide
    rw [hroots]
    have h := @CrawlRun.cons webEmpty (initState ["http://a/".toList] [])
      "http://a/".toList [] _ _ _ _
      (LoopRun.done _ (by decide)) (CrawlRun.nil _)
    simpa using h
  exact ⟨hrun,
    (C6_skip_extensions_never_fetched webEmpty ["http://a/".toList] [] _ _ hrun).1⟩

theorem loopRun_inv_only {w : Web} {root_url : Str} {st t : CrawlerState} {L : List Str}
    (h : LoopRun w root_url st t L) :
    StoreInv st → StoreInv t ∧ st.scraped_data <+: t.scraped_data := by
  induction h with
  | done st hdone => exact fun hinv => ⟨hinv, List.prefix_refl _⟩
  | step st u hu hv hrest ih =>
    intro hinv
    obtain ⟨hinv1, hpre1⟩ := explore_preserves_inv u root_url hinv
    obtain ⟨hinvt, hpret⟩ := ih hinv1
    exact ⟨hinvt, hpre1.trans hpret⟩

theorem crawlRun_inv_only {w : Web} {st : CrawlerState} {roots : List Str}
    {t : CrawlerState} {L : List Str} (h : CrawlRun w st roots t L) :
    StoreInv st → StoreInv t ∧ st.scraped_data <+: t.scraped_data := by
  induction h with
  | nil st => exact fun hinv => ⟨hinv, List.prefix_refl _⟩
  | cons st root_url roots hloop hrest ih =>
    intro hinv
    obtain ⟨hinv0, hpre0⟩ := explore_preserves_inv root_url root_url hinv
    obtain ⟨hinv1, hpre1⟩ := loopRun_inv_only hloop hinv0
    obtain ⟨hinvt, hpret⟩ := ih hinv1
    exact ⟨hinvt, (hpre0.trans hpre1).trans hpret⟩

/-- C8: the store invariant — every key of `scraped_data` is in the
Visited Set and the keys are pairwise distinct — holds in the initial
state, is preserved by every single `explore_and_scrape` call (so it
holds at every point during a crawl, every state change being such a
call), and the store of the earlier state is always a prefix of the store
of the later state: entries are appended, never overwritten. -/
theorem C8_store_keys_visited_never_overwritten (w : Web) (st : CrawlerState)
    (roots : List Str) (t : CrawlerState) (L : List Str) (url root_url : Str)
    (root_urls ignore_urls : List Str)
    (hinv : StoreInv st) (hrun : CrawlRun w st roots t L) :
    StoreInv (initState root_urls ignore_urls) ∧
    (StoreInv (explore_and_scrape w st url root_url) ∧
      st.scraped_data <+: (explore_and_scrape w st url root_url).scraped_data) ∧
    (StoreInv t ∧ st.scraped_data <+: t.scraped_data) :=
  ⟨storeInv_initState root_urls ignore_urls, explore_preserves_inv url root_url hinv,
    crawlRun_inv_only hrun hinv⟩

theorem C8_store_keys_visited_never_overwritten_witness :
    (StoreInv (initState ["http://a/".toList] []) ∧
      CrawlExec webEmpty ["http://a/".toList] []
        (explore_and_scrape webEmpty (initState ["http://a/".toList] [])
          "http://a/".toList "http://a/".toList) ["http://a/".toList]) ∧
    (StoreInv (explore_and_scrape webEmpty (initState ["http://a/".toList] [])
        "http://a/".toList "http://a/".toList) ∧
      (initState ["http://a/".toList] []).scraped_data <+:
        (explore_and_scrape webEmpty (initState ["http://a/".toList] [])
          "http://a/".toList "http://a/".toList).scraped_data) := by
  have hrun : CrawlExec webEmpty ["http://a/".toList] []
      (explore_and_scrape webEmpty (initState ["http://a/".toList] [])
        "http://a/".toList "http://a/".toList) ["http://a/".toList] := by
    show CrawlRun webEmpty _ _ _ _
    have hroots : (initState ["http://a/".toList] []).root_urls = ["http://a/".toList] := by
      decide
    rw [hroots]
    have h := @CrawlRun.cons webEmpty (initState ["http://a/".toList] [])
      "http://a/".toList [] _ _ _ _
      (LoopRun.done _ (by decide)) (CrawlRun.nil _)
    simpa using h
  refine ⟨⟨storeInv_initState _ _, hrun⟩, ?_⟩
  exact (C8_store_keys_visited_never_overwritten webEmpty
    (initState ["http://a/".toList] []) (initState ["http://a/".toList] []).root_urls
    (explore_and_scrape webEmpty (initState ["http://a/".toList] [])
      "http://a/".toList "http://a/".toList) ["http://a/".toList]
    "http://a/".toList "http://a/".toList ["http://a/".toList] []
    (storeInv_initState _ _) hrun).2.1

/-! ## C5: schedule-independence of the crawl

The frontier loop pops an arbitrary member of `found_urls - visited_urls`;
this section proves that any two completed runs over the same fixed page
graph agree on the final visited set, frontier, document store (up to
entry order, i.e. as a map) and on the serialized output text. -/

/-- Two states carrying the same crawl data: equal configuration and
sets, document stores equal up to entry order. -/
def SameData (s t : CrawlerState) : Prop :=
  s.root_urls = t.root_urls ∧ s.ignore_urls = t.ignore_urls ∧
  s.found_urls = t.found_urls ∧ s.visited_urls = t.visited_urls ∧
  s.scraped_data.Perm t.scraped_data

theorem sameData_refl (s : CrawlerState) : SameData s s :=
  ⟨rfl, rfl, rfl, rfl, List.Perm.refl _⟩

theorem sameData_symm {s t : CrawlerState} (h : SameData s t) : SameData t s :=
  ⟨h.1.symm, h.2.1.symm, h.2.2.1.symm, h.2.2.2.1.symm, h.2.2.2.2.symm⟩

theorem sameData_trans {s t u : CrawlerState} (h1 : SameData s t) (h2 : SameData t u) :
    SameData s u :=
  ⟨h1.1.trans h2.1, h1.2.1.trans h2.2.1, h1.2.2.1.trans h2.2.2.1,
    h1.2.2.2.1.trans h2.2.2.2.1, h1.2.2.2.2.trans h2.2.2.2.2⟩

/-- `self.visited_urls.add(normalized_url)` (line 59). -/
def markVisited (x : Str) (s : CrawlerState) : CrawlerState :=
  { s with visited_urls := insert x s.visited_urls }

/-- The body of `explore_and_scrape` after the guard, as a function of
the already-normalized URL (proof device: `explore_and_scrape` equals
this past its guard). -/
def exploreCore (w : Web) (x : Str) (s : CrawlerState) : CrawlerState :=
  if skipExt x then markVisited x s
  else match w.fetch x with
    | .response status soup =>
      if status = 200 then
        discoverLinks w x (scrape_content (markVisited x s) soup x) soup.hrefs
      else markVisited x s
    | .exn => markVisited x s

theorem explore_eq_core {w : Web} {s : CrawlerState} {url root_url : Str}
    (hg : ¬ (normalize_url url ∈ s.visited_urls ∨
      ¬ is_subpath s (normalize_url url) ∨ should_ignore s (normalize_url url))) :
    explore_and_scrape w s url root_url = exploreCore w (normalize_url url) s := by
  rw [explore_and_scrape, if_neg hg, exploreCore]
  rfl

/-- The document-store transformation performed by one `exploreCore`
call; it depends only on the URL and the page graph. -/
def scrapedUpd (w : Web) (x : Str) (m : List (Str × Str)) : List (Str × Str) :=
  if skipExt x then m
  else match w.fetch x with
    | .response status soup => if status = 200 then dictInsert m x soup.text else m
    | .exn => m

/-- The frontier contribution of processing `x`: `y` is an admissible
normalized link of the page at `x` (nonempty only for 200 responses of
non-skipped URLs). -/
def coreLink (w : Web) (s : CrawlerState) (x y : Str) : Prop :=
  skipExt x = false ∧ ∃ soup, w.fetch x = .response 200 soup ∧
    admissible s y = true ∧ ∃ href ∈ soup.hrefs, y = normalize_url (w.join x href)

theorem coreLink_congr {s s' : CrawlerState} (hroots : s.root_urls = s'.root_urls)
    (hign : s.ignore_urls = s'.ignore_urls) (w : Web) (x y : Str) :
    coreLink w s x y ↔ coreLink w s' x y := by
  rw [coreLink, coreLink]
  have : admissible s y = admissible s' y := by
    simp only [admissible, is_subpath, should_ignore, hroots, hign]
  rw [this]

theorem exploreCore_light {w : Web} {x : Str} (s : CrawlerState)
    (h : skipExt x = true ∨ w.fetch x = .exn ∨
      ∃ status soup, w.fetch x = .response status soup ∧ status ≠ 200) :
    exploreCore w x s = markVisited x s := by
  rw [exploreCore]
  rcases h with hskip | hfetch | ⟨status, soup, hfetch, h200⟩
  · rw [if_pos hskip]
  · by_cases hskip : skipExt x
    · rw [if_pos hskip]
    · rw [if_neg hskip, hfetch]
  · by_cases hskip : skipExt x
    · rw [if_pos hskip]
    · rw [if_neg hskip, hfetch]
      exact if_neg h200

theorem exploreCore_ok {w : Web} {x : Str} {soup : Soup} (s : CrawlerState)
    (hskip : skipExt x = false) (hfetch : w.fetch x = .response 200 soup) :
    exploreCore w x s =
      discoverLinks w x (scrape_content (markVisited x s) soup x) soup.hrefs := by
  rw [exploreCore, if_neg (by rw [hskip]; exact Bool.false_ne_true), hfetch]
  exact if_pos rfl

/-- One exhaustive branch split of `exploreCore`: the light branches, or a
200 response for a non-skipped URL. -/
theorem exploreCore_split (w : Web) (x : Str) (s : CrawlerState) :
    (exploreCore w x s = markVisited x s ∧ ∀ y, ¬ coreLink w s x y) ∨
    (∃ soup, skipExt x = false ∧ w.fetch x = .response 200 soup ∧
      exploreCore w x s =
        discoverLinks w x (scrape_content (markVisited x s) soup x) soup.hrefs) := by
  by_cases hskip : skipExt x
  · refine Or.inl ⟨exploreCore_light s (Or.inl hskip), ?_⟩
    rintro y ⟨hsk, -⟩
    rw [hskip] at hsk
    exact Bool.noConfusion hsk
  · have hskip' : skipExt x = false := Bool.not_eq_true _ ▸ hskip
    cases hfetch : w.fetch x with
    | exn =>
      refine Or.inl ⟨exploreCore_light s (Or.inr (Or.inl hfetch)), ?_⟩
      rintro y ⟨-, soup, hf, -⟩
      rw [hfetch] at hf
      exact FetchResult.noConfusion hf
    | response status soup =>
      by_cases h200 : status = 200
      · subst h200
        exact Or.inr ⟨soup, hskip', rfl, exploreCore_ok s hskip' hfetch⟩
      · refine Or.inl ⟨exploreCore_light s (Or.inr (Or.inr ⟨status, soup, hfetch, h200⟩)), ?_⟩
        rintro y ⟨-, soup', hf, -⟩
        rw [hfetch] at hf
        injection hf with h1 h2
        exact h200 h1

theorem exploreCore_config (w : Web) (x : Str) (s : CrawlerState) :
    (exploreCore w x s).root_urls = s.root_urls ∧
    (exploreCore w x s).ignore_urls = s.ignore_urls ∧
    (exploreCore w x s).visited_urls = insert x s.visited_urls := by
  rcases exploreCore_split w x s with ⟨heq, -⟩ | ⟨soup, -, -, heq⟩
  · rw [heq]
    exact ⟨rfl, rfl, rfl⟩
  · rw [heq]
    obtain ⟨hr, hi, hv, -⟩ := discoverLinks_immutable w x
      (scrape_content (markVisited x s) soup x) soup.hrefs
    exact ⟨hr, hi, hv⟩

theorem exploreCore_scraped (w : Web) (x : Str) (s : CrawlerState) :
    (exploreCore w x s).scraped_data = scrapedUpd w x s.scraped_data := by
  rw [exploreCore, scrapedUpd]
  by_cases hskip : skipExt x
  · rw [if_pos hskip, if_pos hskip]
    rfl
  · rw [if_neg hskip, if_neg hskip]
    cases hfetch : w.fetch x with
    | exn => rfl
    | response status soup =>
      show (if status = 200 then
          discoverLinks w x (scrape_content (markVisited x s) soup x) soup.hrefs
        else markVisited x s).scraped_data =
          (if status = 200 then dictInsert s.scraped_data x soup.text else s.scraped_data)
      by_cases h200 : status = 200
      · rw [if_pos h200, if_pos h200]
        exact (discoverLinks_immutable w x
          (scrape_content (markVisited x s) soup x) soup.hrefs).2.2.2
      · rw [if_neg h200, if_neg h200]
        rfl

theorem exploreCore_found_mem (w : Web) (x : Str) (s : CrawlerState) (y : Str) :
    y ∈ (exploreCore w x s).found_urls ↔ y ∈ s.found_urls ∨ coreLink w s x y := by
  rcases exploreCore_split w x s with ⟨heq, hno⟩ | ⟨soup, hskip, hfetch, heq⟩
  · rw [heq]
    show y ∈ s.found_urls ↔ _
    constructor
    · exact Or.inl
    · rintro (h | h)
      · exact h
      · exact absurd h (hno y)
  · rw [heq, discoverLinks_found_mem]
    have hconv : admissible (scrape_content (markVisited x s) soup x) y
        = admissible s y := rfl
    show y ∈ s.found_urls ∨ _ ↔ _
    rw [hconv]
    constructor
    · rintro (h | ⟨hadm, href, hh, hy⟩)
      · exact Or.inl h
      · exact Or.inr ⟨hskip, soup, hfetch, hadm, href, hh, hy⟩
    · rintro (h | ⟨-, soup', hf, hadm, href, hh, hy⟩)
      · exact Or.inl h
      · rw [hfetch] at hf
        obtain ⟨-, h2⟩ := FetchResult.response.injEq _ _ _ _ ▸ hf
        subst h2
        exact Or.inr ⟨hadm, href, hh, hy⟩

theorem is_subpath_congr {s t : CrawlerState} (h : s.root_urls = t.root_urls)
    (x : Str) : is_subpath s x = is_subpath t x := by
  rw [is_subpath, is_subpath, h]

theorem should_ignore_congr {s t : CrawlerState} (h : s.ignore_urls = t.ignore_urls)
    (x : Str) : should_ignore s x = should_ignore t x := by
  rw [should_ignore, should_ignore, h]

theorem dictInsert_perm {m m' : List (Str × Str)} (h : m.Perm m') (k v : Str) :
    (dictInsert m k v).Perm (dictInsert m' k v) := by
  rw [dictInsert, dictInsert]
  have hkeys : k ∈ m.map Prod.fst ↔ k ∈ m'.map Prod.fst := (h.map Prod.fst).mem_iff
  by_cases hk : k ∈ m.map Prod.fst
  · rw [if_pos hk, if_pos (hkeys.1 hk)]
    exact h.map _
  · rw [if_neg hk, if_neg (fun hc => hk (hkeys.2 hc))]
    exact h.append_right _

/-- For a fixed page graph and URL, the store transformation of one step
is either the identity or one `dict` assignment of a fixed text. -/
theorem scrapedUpd_fun (w : Web) (x : Str) :
    (∀ m, scrapedUpd w x m = m) ∨
    ∃ tx, ∀ m, scrapedUpd w x m = dictInsert m x tx := by
  by_cases hskip : skipExt x
  · exact Or.inl (fun m => by rw [scrapedUpd, if_pos hskip])
  · cases hfetch : w.fetch x with
    | exn => exact Or.inl (fun m => by rw [scrapedUpd, if_neg hskip, hfetch])
    | response status soup =>
      by_cases h200 : status = 200
      · subst h200
        exact Or.inr ⟨soup.text, fun m => by
          rw [scrapedUpd, if_neg hskip, hfetch]
          exact if_pos rfl⟩
      · exact Or.inl (fun m => by
          rw [scrapedUpd, if_neg hskip, hfetch]
          exact if_neg h200)

theorem scrapedUpd_perm {m m' : List (Str × Str)} (h : m.Perm m') (w : Web) (x : Str) :
    (scrapedUpd w x m).Perm (scrapedUpd w x m') := by
  rcases scrapedUpd_fun w x with hid | ⟨tx, hins⟩
  · rw [hid m, hid m']
    exact h
  · rw [hins m, hins m']
    exact dictInsert_perm h x tx

theorem exploreCore_sameData {s s' : CrawlerState} (h : SameData s s') (w : Web)
    (x : Str) : SameData (exploreCore w x s) (exploreCore w x s') := by
  obtain ⟨hr, hi, hf, hv, hp⟩ := h
  obtain ⟨hrU, hiU, hvU⟩ := exploreCore_config w x s
  obtain ⟨hrU', hiU', hvU'⟩ := exploreCore_config w x s'
  refine ⟨?_, ?_, ?_, ?_, ?_⟩
  · rw [hrU, hrU', hr]
  · rw [hiU, hiU', hi]
  · apply Finset.ext
    intro y
    rw [exploreCore_found_mem, exploreCore_found_mem, hf, coreLink_congr hr hi]
  · rw [hvU, hvU', hv]
  · rw [exploreCore_scraped, exploreCore_scraped]
    exact scrapedUpd_perm hp w x

theorem explore_sameData {s s' : CrawlerState} (h : SameData s s') (w : Web)
    (url root_url : Str) :
    SameData (explore_and_scrape w s url root_url)
      (explore_and_scrape w s' url root_url) := by
  have hguard : (normalize_url url ∈ s.visited_urls ∨
      ¬ is_subpath s (normalize_url url) ∨ should_ignore s (normalize_url url)) ↔
      (normalize_url url ∈ s'.visited_urls ∨
      ¬ is_subpath s' (normalize_url url) ∨ should_ignore s' (normalize_url url)) := by
    rw [h.2.2.2.1, is_subpath_congr h.1, should_ignore_congr h.2.1]
  by_cases hg : normalize_url url ∈ s.visited_urls ∨
      ¬ is_subpath s (normalize_url url) ∨ should_ignore s (normalize_url url)
  · rw [explore_guard_id w s url root_url hg,
      explore_guard_id w s' url root_url (hguard.1 hg)]
    exact ⟨h.1, h.2.1, h.2.2.1, h.2.2.2.1, h.2.2.2.2⟩
  · rw [@explore_eq_core w s url root_url hg,
      @explore_eq_core w s' url root_url (fun hc => hg (hguard.2 hc))]
    exact exploreCore_sameData ⟨h.1, h.2.1, h.2.2.1, h.2.2.2.1, h.2.2.2.2⟩ w _

/-- Runs transport along data equivalence: a loop run from `s` can be
replayed from any state carrying the same data, ending in an equivalent
state. -/
theorem loopRun_transport {w : Web} {root_url : Str} {s t : CrawlerState}
    {L : List Str} (h : LoopRun w root_url s t L) :
    ∀ s', SameData s s' → ∃ t' L', LoopRun w root_url s' t' L' ∧ SameData t t' := by
  induction h with
  | done st hdone =>
    intro s' hs
    refine ⟨s', [], LoopRun.done s' ?_, hs⟩
    rw [← hs.2.2.1, ← hs.2.2.2.1]
    exact hdone
  | step st u hu hv hrest ih =>
    intro s' hs
    have hu' : u ∈ s'.found_urls := hs.2.2.1 ▸ hu
    have hv' : u ∉ s'.visited_urls := hs.2.2.2.1 ▸ hv
    obtain ⟨t', L', hrun', ht⟩ := ih _ (explore_sameData hs w u root_url)
    exact ⟨t', exploreFetchLog s' u ++ L', LoopRun.step s' u hu' hv' hrun', ht⟩

/-- In a state from which the frontier loop can run to completion, every
poppable frontier member is a fixed point of normalization: otherwise the
member itself could never enter the Visited Set (only normalized forms
are ever inserted), so the loop could not terminate. -/
theorem loopRun_frontier_fixed {w : Web} {root_url : Str} {s t : CrawlerState}
    {L : List Str} (h : LoopRun w root_url s t L) :
    ∀ u ∈ s.found_urls, u ∉ s.visited_urls → normalize_url u = u := by
  induction h with
  | done st hdone =>
    intro u hu huv
    exact absurd (hdone u hu) huv
  | step st v hvf hvv hrest ih =>
    intro u hu huv
    by_contra hne
    obtain ⟨-, -, -, hvb, hfmono, -⟩ := explore_main w st v root_url
    by_cases hvis : u ∈ (explore_and_scrape w st v root_url).visited_urls
    · have hun : u = normalize_url v := by
        rcases Finset.mem_insert.1 (hvb hvis) with h1 | h1
        · exact h1
        · exact absurd h1 huv
      have hveq : normalize_url v = v := by
        by_cases hvis2 : v ∈ (explore_and_scrape w st v root_url).visited_urls
        · rcases Finset.mem_insert.1 (hvb hvis2) with h1 | h1
          · exact h1.symm
          · exact absurd h1 hvv
        · exact ih v (hfmono hvf) hvis2
      have : u = v := hun.trans hveq
      subst this
      exact hne (hun ▸ hveq ▸ rfl)
    · exact hne (ih u (hfmono hu) hvis)

/-- Two one-step transformations at distinct unvisited URLs commute up to
store permutation. -/
theorem exploreCore_comm {w : Web} {u v : Str} {s : CrawlerState} (huv : u ≠ v)
    (hinv : StoreInv s) (hu : u ∉ s.visited_urls) (hv : v ∉ s.visited_urls) :
    SameData (exploreCore w v (exploreCore w u s))
      (exploreCore w u (exploreCore w v s)) := by
  obtain ⟨hrU, hiU, hvU⟩ := exploreCore_config w u s
  obtain ⟨hrV, hiV, hvV⟩ := exploreCore_config w v s
  obtain ⟨hrVU, hiVU, hvVU⟩ := exploreCore_config w v (exploreCore w u s)
  obtain ⟨hrUV, hiUV, hvUV⟩ := exploreCore_config w u (exploreCore w v s)
  have hkeyu : u ∉ s.scraped_data.map Prod.fst := fun hc => hu (hinv.2 _ hc)
  have hkeyv : v ∉ s.scraped_data.map Prod.fst := fun hc => hv (hinv.2 _ hc)
  refine ⟨?_, ?_, ?_, ?_, ?_⟩
  · rw [hrVU, hrU, hrUV, hrV]
  · rw [hiVU, hiU, hiUV, hiV]
  · apply Finset.ext
    intro y
    rw [exploreCore_found_mem, exploreCore_found_mem, exploreCore_found_mem,
      exploreCore_found_mem, coreLink_congr hrU hiU, coreLink_congr hrV hiV]
    tauto
  · rw [hvVU, hvU, hvUV, hvV]
    exact Finset.Insert.comm v u s.visited_urls
  · rw [exploreCore_scraped, exploreCore_scraped, exploreCore_scraped,
      exploreCore_scraped]
    rcases scrapedUpd_fun w u with hidU | ⟨tu, hinsU⟩
    · rw [hidU, hidU]
    · rcases scrapedUpd_fun w v with hidV | ⟨tv, hinsV⟩
      · rw [hidV, hidV]
      · rw [hinsU, hinsV, hinsU, hinsV]
        have hkeyu2 : u ∉ (s.scraped_data ++ [(v, tv)]).map Prod.fst := by
          rw [List.map_append]
          intro hc
          rcases List.mem_append.1 hc with hc | hc
          · exact hkeyu hc
          · simp only [List.map_cons, List.map_nil, List.mem_singleton] at hc
            exact huv hc
        have hkeyv2 : v ∉ (s.scraped_data ++ [(u, tu)]).map Prod.fst := by
          rw [List.map_append]
          intro hc
          rcases List.mem_append.1 hc with hc | hc
          · exact hkeyv hc
          · simp only [List.map_cons, List.map_nil, List.mem_singleton] at hc
            exact huv hc.symm
        rw [dictInsert_not_mem tu hkeyu, dictInsert_not_mem tv hkeyv,
          dictInsert_not_mem tv hkeyv2, dictInsert_not_mem tu hkeyu2,
          List.append_assoc, List.append_assoc]
        exact List.Perm.append_left s.scraped_data (List.Perm.swap _ _ _)

set_option maxHeartbeats 2000000 in
/-- The key diamond step: if the loop can run to completion from `s` and
`u` is poppable at `s`, then the loop can also run to completion after
first popping `u`, ending in a state with the same data. -/
theorem loopRun_shift {w : Web} {root_url : Str} {s t : CrawlerState} {L : List Str}
    (h : LoopRun w root_url s t L) :
    ∀ u, u ∈ s.found_urls → u ∉ s.visited_urls → StoreInv s →
    ∃ t' L', LoopRun w root_url (explore_and_scrape w s u root_url) t' L' ∧
      SameData t t' := by
  induction h with
  | done st hdone =>
    intro u hu hunv _
    exact absurd (hdone u hu) hunv
  | step st v hvf hvv hrest ih =>
    intro u hu hunv hinv
    by_cases hveq : u = v
    · subst hveq
      exact ⟨_, _, hrest, sameData_refl _⟩
    · have hD : LoopRun w root_url st _ _ := LoopRun.step st v hvf hvv hrest
      have hfixu : normalize_url u = u := loopRun_frontier_fixed hD u hu hunv
      have hfixv : normalize_url v = v := loopRun_frontier_fixed hD v hvf hvv
      by_cases hgv : normalize_url v ∈ st.visited_urls ∨
          ¬ is_subpath st (normalize_url v) ∨ should_ignore st (normalize_url v)
      · -- the guard drops v, so the first step of the given run is a no-op
        have hs2 : explore_and_scrape w st v root_url = st :=
          explore_guard_id w st v root_url hgv
        rw [hs2] at ih
        exact ih u hu hunv hinv
      · by_cases hgu : normalize_url u ∈ st.visited_urls ∨
            ¬ is_subpath st (normalize_url u) ∨ should_ignore st (normalize_url u)
        · -- the guard drops u, so popping u first changes nothing
          rw [explore_guard_id w st u root_url hgu]
          exact ⟨_, _, hD, sameData_refl _⟩
        · -- both guards pass: commute the two explorations
          have hs1 : explore_and_scrape w st u root_url = exploreCore w u st := by
            have h0 := @explore_eq_core w st u root_url hgu
            rw [hfixu] at h0
            exact h0
          have hs2 : explore_and_scrape w st v root_url = exploreCore w v st := by
            have h0 := @explore_eq_core w st v root_url hgv
            rw [hfixv] at h0
            exact h0
          obtain ⟨hrU, hiU, hvU⟩ := exploreCore_config w u st
          obtain ⟨hrV, hiV, hvV⟩ := exploreCore_config w v st
          -- v is still poppable after processing u
          have hvf1 : v ∈ (exploreCore w u st).found_urls :=
            (exploreCore_found_mem w u st v).2 (Or.inl hvf)
          have hvv1 : v ∉ (exploreCore w u st).visited_urls := by
            rw [hvU]
            intro hc
            rcases Finset.mem_insert.1 hc with h1 | h1
            · exact hveq h1.symm
            · exact hvv h1
          -- u is still poppable after processing v
          have huf2 : u ∈ (exploreCore w v st).found_urls :=
            (exploreCore_found_mem w v st u).2 (Or.inl hu)
          have huv2 : u ∉ (exploreCore w v st).visited_urls := by
            rw [hvV]
            intro hc
            rcases Finset.mem_insert.1 hc with h1 | h1
            · exact hveq h1
            · exact hunv h1
          -- the guard of u still passes after processing v
          have hgu2 : ¬ (normalize_url u ∈ (exploreCore w v st).visited_urls ∨
              ¬ is_subpath (exploreCore w v st) (normalize_url u) ∨
              should_ignore (exploreCore w v st) (normalize_url u)) := by
            rw [hfixu, is_subpath_congr hrV, should_ignore_congr hiV]
            rintro (hc | hc | hc)
            · exact huv2 hc
            · exact hgu (Or.inr (Or.inl (by rw [hfixu]; exact hc)))
            · exact hgu (Or.inr (Or.inr (by rw [hfixu]; exact hc)))
          -- the guard of v still passes after processing u
          have hgv1 : ¬ (normalize_url v ∈ (exploreCore w u st).visited_urls ∨
              ¬ is_subpath (exploreCore w u st) (normalize_url v) ∨
              should_ignore (exploreCore w u st) (normalize_url v)) := by
            rw [hfixv, is_subpath_congr hrU, should_ignore_congr hiU]
            rintro (hc | hc | hc)
            · exact hvv1 hc
            · exact hgv (Or.inr (Or.inl (by rw [hfixv]; exact hc)))
            · exact hgv (Or.inr (Or.inr (by rw [hfixv]; exact hc)))
          -- run the induction hypothesis after the given first step
          have hinv2 : StoreInv (exploreCore w v st) := by
            have h0 := (@explore_preserves_inv w st v root_url hinv).1
            rw [hs2] at h0
            exact h0
          rw [hs2] at ih
          obtain ⟨t2, L2, hrun2, ht2⟩ := ih u huf2 huv2 hinv2
          have hs3 : explore_and_scrape w (exploreCore w v st) u root_url
              = exploreCore w u (exploreCore w v st) := by
            have h0 := @explore_eq_core w (exploreCore w v st) u root_url hgu2
            rw [hfixu] at h0
            exact h0
          rw [hs3] at hrun2
          -- commute and transport
          have hcomm : SameData (exploreCore w v (exploreCore w u st))
              (exploreCore w u (exploreCore w v st)) :=
            exploreCore_comm hveq hinv hunv hvv
          obtain ⟨t1, L1, hrun1, ht1⟩ :=
            loopRun_transport hrun2 _ (sameData_symm hcomm)
          -- prepend the pop of v after the pop of u
          have hs4 : explore_and_scrape w (exploreCore w u st) v root_url
              = exploreCore w v (exploreCore w u st) := by
            have h0 := @explore_eq_core w (exploreCore w u st) v root_url hgv1
            rw [hfixv] at h0
            exact h0
          refine ⟨t1, exploreFetchLog (exploreCore w u st) v ++ L1, ?_, ?_⟩
          · rw [hs1]
            refine LoopRun.step _ v hvf1 hvv1 ?_
            rw [hs4]
            exact hrun1
          · exact sameData_trans ht2 ht1

/-- Any two completed frontier loops from the same state end with the
same data. -/
theorem loopRun_unique {w : Web} {root_url : Str} {s t1 : CrawlerState}
    {L1 : List Str} (h1 : LoopRun w root_url s t1 L1) :
    ∀ {t2 : CrawlerState} {L2 : List Str}, StoreInv s →
      LoopRun w root_url s t2 L2 → SameData t1 t2 := by
  induction h1 with
  | done st hdone =>
    intro t2 L2 hinv h2
    cases h2 with
    | done _ _ => exact sameData_refl st
    | step _ u hu hv hrest => exact absurd (hdone u hu) hv
  | step st u huf hunv hrest ih =>
    intro t2 L2 hinv h2
    obtain ⟨t2', L2', hrun2', ht2⟩ := loopRun_shift h2 u huf hunv hinv
    have hinv1 : StoreInv (explore_and_scrape w st u root_url) :=
      (explore_preserves_inv u root_url hinv).1
    exact sameData_trans (ih hinv1 hrun2') (sameData_symm ht2)

/-- Any two completed crawls over the same root list from states with the
same data end with the same data. -/
theorem crawlRun_unique {w : Web} {s1 : CrawlerState} {roots : List Str}
    {t1 : CrawlerState} {L1 : List Str} (h1 : CrawlRun w s1 roots t1 L1) :
    ∀ {s2 t2 : CrawlerState} {L2 : List Str}, CrawlRun w s2 roots t2 L2 →
      SameData s1 s2 → StoreInv s1 → SameData t1 t2 := by
  induction h1 with
  | nil st =>
    intro s2 t2 L2 h2 hs hinv
    cases h2 with
    | nil _ => exact hs
  | cons st root_url roots hloop1 hrest1 ih =>
    intro s2 t2 L2 h2 hs hinv
    cases h2 with
    | cons _ _ _ hloop2 hrest2 =>
      have hseed : SameData (explore_and_scrape w st root_url root_url)
          (explore_and_scrape w s2 root_url root_url) :=
        explore_sameData hs w root_url root_url
      obtain ⟨st2', L', hloop2', hst2⟩ :=
        loopRun_transport hloop2 _ (sameData_symm hseed)
      have hinv0 : StoreInv (explore_and_scrape w st root_url root_url) :=
        (explore_preserves_inv root_url root_url hinv).1
      have h12 := loopRun_unique hloop1 hinv0 hloop2'
      rename_i st1 L1a t L2a st2 L2b L2c
      have hinv1 : StoreInv st1 := (loopRun_inv_only hloop1 hinv0).1
      exact ih hrest2 (sameData_trans h12 (sameData_symm hst2)) hinv1

/-- Stores equal up to entry order sort to the same list (`pairLe` is
antisymmetric). -/
theorem sort_perm_eq {m m' : List (Str × Str)} (h : m.Perm m') :
    sort_scraped_data m = sort_scraped_data m' := by
  haveI : IsAntisymm (Str × Str) (fun a b => pairLe a b = true) :=
    ⟨fun a b h1 h2 => pairLe_antisymm h1 h2⟩
  have hp : (sort_scraped_data m).Perm (sort_scraped_data m') :=
    ((List.mergeSort_perm m pairLe).trans h).trans (List.mergeSort_perm m' pairLe).symm
  exact List.eq_of_perm_of_sorted hp
    (@List.sorted_mergeSort _ pairLe pairLe_trans pairLe_total m)
    (@List.sorted_mergeSort _ pairLe pairLe_trans pairLe_total m')

/-- C5: for a fixed page graph (`w` is a fixed, deterministic fetch result
for every URL), any two completed runs of `crawl_and_scrape` from the
same configuration produce the same final Frontier, the same Visited Set,
Document Stores equal as maps (same entries up to insertion order), the
same sorted store, and byte-identical `convert_to_text` output — even
though the frontier member popped at each loop step is arbitrary and may
differ between the runs. -/
theorem C5_crawl_schedule_independent (w : Web) (root_urls ignore_urls : List Str)
    (t1 t2 : CrawlerState) (L1 L2 : List Str)
    (h1 : CrawlExec w root_urls ignore_urls t1 L1)
    (h2 : CrawlExec w root_urls ignore_urls t2 L2) :
    t1.found_urls = t2.found_urls ∧ t1.visited_urls = t2.visited_urls ∧
    t1.scraped_data.Perm t2.scraped_data ∧
    sort_scraped_data t1.scraped_data = sort_scraped_data t2.scraped_data ∧
    convert_to_text t1.scraped_data = convert_to_text t2.scraped_data := by
  have hsd : SameData t1 t2 :=
    crawlRun_unique h1 h2 (sameData_refl _) (storeInv_initState root_urls ignore_urls)
  obtain ⟨-, -, hf, hv, hp⟩ := hsd
  have hsort := sort_perm_eq hp
  refine ⟨hf, hv, hp, hsort, ?_⟩
  rw [convert_to_text, convert_to_text, hsort]

theorem C5_crawl_schedule_independent_witness :
    CrawlExec webEmpty ["http://a/".toList] []
      (explore_and_scrape webEmpty (initState ["http://a/".toList] [])
        "http://a/".toList "http://a/".toList) ["http://a/".toList] ∧
    convert_to_text (explore_and_scrape webEmpty (initState ["http://a/".toList] [])
        "http://a/".toList "http://a/".toList).scraped_data =
      convert_to_text (explore_and_scrape webEmpty (initState ["http://a/".toList] [])
        "http://a/".toList "http://a/".toList).scraped_data := by
  have hrun : CrawlExec webEmpty ["http://a/".toList] []
      (explore_and_scrape webEmpty (initState ["http://a/".toList] [])
        "http://a/".toList "http://a/".toList) ["http://a/".toList] := by
    show CrawlRun webEmpty _ _ _ _
    have hroots : (initState ["http://a/".toList] []).root_urls = ["http://a/".toList] := by
      decide
    rw [hroots]
    have h := @CrawlRun.cons webEmpty (initState ["http://a/".toList] [])
      "http://a/".toList [] _ _ _ _
      (LoopRun.done _ (by decide)) (CrawlRun.nil _)
    simpa using h
  exact ⟨hrun, (C5_crawl_schedule_independent webEmpty ["http://a/".toList] []
    _ _ _ _ hrun hrun).2.2.2.2⟩

end ScrapeWebPage
